import Mathlib

/-!
Verification of the JSONC keybindings editor (keybindings-remove.py and
keybindings-sort.py): a format-preserving editor for a JSON-with-comments
array of flat objects.  Strings are modelled as lists of characters
(Python text).  All definitions are straight translations of the Python
source; Python library calls (re-based scans, json.loads, sorted) are
modelled by equivalent executable Lean functions.

Modelling notes, applied uniformly:
* Python lines are split on the newline character only (the documents in
  this domain use plain line feeds; Python would additionally split on
  carriage returns and rare Unicode separators).
* Digits are the ASCII digits 0-9 and lower-casing is ASCII, matching
  the key-combination strings of this domain.
* Python sorted is a stable sort by a total preorder; every stable sort
  produces the same output, so it is modelled with List.mergeSort.
-/

namespace Gigachad

/-- Python str.isspace / strip character class (ASCII whitespace). -/
def pyIsSpace (c : Char) : Bool :=
  c = ' ' ∨ c = '\t' ∨ c = '\n' ∨ c = '\r' ∨ c = '\x0b' ∨ c = '\x0c'

/-- Python lstrip(). -/
def pyLstrip (s : List Char) : List Char := s.dropWhile pyIsSpace

/-- Python rstrip(). -/
def pyRstrip (s : List Char) : List Char := (s.reverse.dropWhile pyIsSpace).reverse

/-- Python strip(). -/
def pyStrip (s : List Char) : List Char := pyLstrip (pyRstrip s)

/-- Python s.endswith(t) for character lists. -/
def endsWithL (t s : List Char) : Bool := t.reverse.isPrefixOf s.reverse

/-- Python needle in hay (substring containment). -/
def isSubstrOf (needle hay : List Char) : Bool :=
  hay.tails.any (fun t => needle.isPrefixOf t)

/-- Python text.splitlines(keepends=True), newline-only model: every
newline ends a line and is kept; a final segment without a newline is a
line of its own. -/
def splitLines : List Char → List (List Char)
  | [] => []
  | c :: rest =>
    if c = '\n' then ['\n'] :: splitLines rest
    else
      match splitLines rest with
      | [] => [[c]]
      | l :: ls => (c :: l) :: ls

/-- Python text.splitlines() (newlines dropped). -/
def splitLinesNK (s : List Char) : List (List Char) :=
  (splitLines s).map (fun l => if endsWithL ['\n'] l then l.dropLast else l)

/-- Join a list of lines (inverse of splitLines on well-formed input). -/
def joinL (ls : List (List Char)) : List Char := ls.flatten

/-!
## strip_json_comments

The Python source substitutes the regular expression
("(?:\\.|[^"\\])*"|//.*?$|/\*.*?\*/) with DOTALL and MULTILINE, keeping
string-literal matches and deleting comment matches.  re.sub scans left to
right for the leftmost match, so it is equivalent to a single forward
character scan that, at each position, first tries to match a string
literal, then a line comment (up to but not including the newline), then a
block comment (up to and including the first star-slash), and otherwise
copies one character.
-/

/-- Match the regex string-literal body after an opening quote:
(\\.|[^"\\])* followed by a closing quote.  Returns the matched text
(including the closing quote) and the remainder; none if no closing
quote is reachable. -/
def stringBody : List Char → Option (List Char × List Char)
  | [] => none
  | c :: rest =>
    if c = '"' then some (['"'], rest)
    else if c = '\\' then
      match rest with
      | [] => none
      | e :: rest2 =>
        match stringBody rest2 with
        | some (b, r) => some (c :: e :: b, r)
        | none => none
    else
      match stringBody rest with
      | some (b, r) => some (c :: b, r)
      | none => none

theorem stringBody_length : ∀ s b r, stringBody s = some (b, r) →
    b.length + r.length = s.length ∧ 0 < b.length := by
  intro s
  induction s using stringBody.induct with
  | case1 => intro b r h; rw [stringBody.eq_def] at h; simp at h
  | case2 rest2 =>
    intro b r h
    rw [stringBody.eq_def] at h
    simp at h
    obtain ⟨h1, h2⟩ := h
    subst h1; subst h2; simp; omega
  | case3 hne => intro b r h; rw [stringBody.eq_def] at h; simp at h
  | case4 e rest2 b0 r0 hs hne ih =>
    intro b r h
    rw [stringBody.eq_def] at h
    simp [hs] at h
    obtain ⟨h1, h2⟩ := h
    subst h1; subst h2
    have := ih b0 r0 hs
    simp only [List.length_cons]
    omega
  | case5 e rest2 hs hne ih =>
    intro b r h
    rw [stringBody.eq_def] at h
    simp [hs] at h
  | case6 e rest2 h1 h2 b0 r0 hs ih =>
    intro b r h
    rw [stringBody.eq_def] at h
    simp [h1, h2, hs] at h
    obtain ⟨ha, hb⟩ := h
    subst ha; subst hb
    have := ih b0 r0 hs
    simp only [List.length_cons]
    omega
  | case7 e rest2 h1 h2 hs ih =>
    intro b r h
    rw [stringBody.eq_def] at h
    simp [h1, h2, hs] at h

/-- Find the end of a block comment: drop everything up to and including
the first star-slash; none if there is none. -/
def findClose : List Char → Option (List Char)
  | [] => none
  | [_] => none
  | a :: b :: rest =>
    if a = '*' ∧ b = '/' then some rest else findClose (b :: rest)

theorem findClose_length : ∀ s r, findClose s = some r → r.length + 2 ≤ s.length := by
  intro s
  induction s using findClose.induct with
  | case1 => intro r h; rw [findClose.eq_def] at h; simp at h
  | case2 x => intro r h; rw [findClose.eq_def] at h; simp at h
  | case3 a b rest hab =>
    intro r h
    rw [findClose.eq_def] at h
    simp only [if_pos hab, Option.some.injEq] at h
    subst h
    simp only [List.length_cons]
    omega
  | case4 a b rest hab ih =>
    intro r h
    rw [findClose.eq_def] at h
    simp only [if_neg hab] at h
    have := ih r h
    simp only [List.length_cons] at this ⊢
    omega

/-- Drop the rest of a line comment: everything before the next newline
(the newline itself is kept, matching the non-greedy match up to the
MULTILINE end-of-line anchor). -/
def dropLineRest (s : List Char) : List Char := s.dropWhile (fun c => ¬ (c = '\n'))

theorem dropLineRest_length (s : List Char) : (dropLineRest s).length ≤ s.length :=
  (List.dropWhile_sublist _).length_le

/-- Fuel-indexed scan of strip_json_comments; every step consumes at
least one input character, so the fuel passed by the wrapper never runs
out. -/
def sjcF : Nat → List Char → List Char
  | 0, _ => []
  | _, [] => []
  | Nat.succ f, '"' :: rest =>
    match stringBody rest with
    | some (b, r) => '"' :: (b ++ sjcF f r)
    | none => '"' :: sjcF f rest
  | Nat.succ f, '/' :: '/' :: rest => sjcF f (dropLineRest rest)
  | Nat.succ f, '/' :: '*' :: rest =>
    match findClose rest with
    | some r => sjcF f r
    | none => '/' :: sjcF f ('*' :: rest)
  | Nat.succ f, c :: rest => c :: sjcF f rest

/-- Model of strip_json_comments: remove // and block comments outside
string literals, keep string literals verbatim. -/
def strip_json_comments (s : List Char) : List Char := sjcF (s.length + 1) s

/-- Model of strip_trailing_commas: the regex ,\s*([}\]]) replaced by the
captured closing bracket, scanning left to right; a comma followed by
whitespace and a closing brace or bracket is deleted and scanning resumes
after the bracket. -/
def stcF : Nat → List Char → List Char
  | 0, _ => []
  | _, [] => []
  | Nat.succ f, ',' :: rest =>
    match rest.dropWhile pyIsSpace with
    | c :: r2 =>
      if c = '\x7d' ∨ c = ']' then c :: stcF f r2
      else ',' :: stcF f rest
    | [] => ',' :: stcF f rest
  | Nat.succ f, c :: rest => c :: stcF f rest

def strip_trailing_commas (s : List Char) : List Char := stcF (s.length + 1) s

/-!
## JSON model (Python json.loads)

Values as produced by json.loads: dicts keep all keys with the last
duplicate winning; numbers with a fraction or exponent (and the NaN and
Infinity literals json accepts) are kept as their Python str() rendering,
since exact float formatting is outside this model and never reached by
the keybinding documents, whose fields are strings.
-/

inductive JVal where
  | jnull : JVal
  | jbool : Bool → JVal
  | jint : Int → JVal
  | jnum : List Char → JVal
  | jstr : List Char → JVal
  | jarr : List JVal → JVal
  | jobj : List (List Char × JVal) → JVal

/-- JSON whitespace (exactly the four characters json.loads skips). -/
def jsonWs (c : Char) : Bool := c = ' ' ∨ c = '\t' ∨ c = '\n' ∨ c = '\r'

def skipWsJ (s : List Char) : List Char := s.dropWhile jsonWs

def hexVal (c : Char) : Option Nat :=
  if '0' ≤ c ∧ c ≤ '9' then some (c.toNat - '0'.toNat)
  else if 'a' ≤ c ∧ c ≤ 'f' then some (c.toNat - 'a'.toNat + 10)
  else if 'A' ≤ c ∧ c ≤ 'F' then some (c.toNat - 'A'.toNat + 10)
  else none

/-- Decode a JSON string body after the opening quote (strict mode:
raw control characters and bad escapes are errors).  A proper surrogate
pair combines into one scalar; a lone surrogate, which Python would keep
as an unpaired surrogate code unit, is mapped to U+FFFD since Lean
characters are scalar values (never reached by these documents). -/
def parseJStrBody : Nat → List Char → Option (List Char × List Char)
  | 0, _ => none
  | _, [] => none
  | Nat.succ f, c :: rest =>
    if c = '"' then some ([], rest)
    else if c = '\\' then
      match rest with
      | [] => none
      | e :: rest2 =>
        if e = '"' ∨ e = '\\' ∨ e = '/' then
          match parseJStrBody f rest2 with
          | some (b, r) => some (e :: b, r)
          | none => none
        else if e = 'b' ∨ e = 'f' ∨ e = 'n' ∨ e = 'r' ∨ e = 't' then
          let d : Char :=
            if e = 'b' then '\x08' else if e = 'f' then '\x0c'
            else if e = 'n' then '\n' else if e = 'r' then '\r' else '\t'
          match parseJStrBody f rest2 with
          | some (b, r) => some (d :: b, r)
          | none => none
        else if e = 'u' then
          match rest2 with
          | h1 :: h2 :: h3 :: h4 :: rest3 =>
            match hexVal h1, hexVal h2, hexVal h3, hexVal h4 with
            | some v1, some v2, some v3, some v4 =>
              let n := ((v1 * 16 + v2) * 16 + v3) * 16 + v4
              if 0xd800 ≤ n ∧ n ≤ 0xdbff then
                match rest3 with
                | '\\' :: 'u' :: g1 :: g2 :: g3 :: g4 :: rest4 =>
                  match hexVal g1, hexVal g2, hexVal g3, hexVal g4 with
                  | some w1, some w2, some w3, some w4 =>
                    let m := ((w1 * 16 + w2) * 16 + w3) * 16 + w4
                    if 0xdc00 ≤ m ∧ m ≤ 0xdfff then
                      let cp := 0x10000 + (n - 0xd800) * 0x400 + (m - 0xdc00)
                      match parseJStrBody f rest4 with
                      | some (b, r) => some (Char.ofNat cp :: b, r)
                      | none => none
                    else
                      match parseJStrBody f rest3 with
                      | some (b, r) => some ('\uFFFD' :: b, r)
                      | none => none
                  | _, _, _, _ =>
                    match parseJStrBody f rest3 with
                    | some (b, r) => some ('\uFFFD' :: b, r)
                    | none => none
                | _ =>
                  match parseJStrBody f rest3 with
                  | some (b, r) => some ('\uFFFD' :: b, r)
                  | none => none
              else if 0xdc00 ≤ n ∧ n ≤ 0xdfff then
                match parseJStrBody f rest3 with
                | some (b, r) => some ('\uFFFD' :: b, r)
                | none => none
              else
                match parseJStrBody f rest3 with
                | some (b, r) => some (Char.ofNat n :: b, r)
                | none => none
            | _, _, _, _ => none
          | _ => none
        else none
    else if c.toNat < 32 then none
    else
      match parseJStrBody f rest with
      | some (b, r) => some (c :: b, r)
      | none => none

/-- JSON number grammar: -?(0|[1-9][0-9]*)(\.[0-9]+)?([eE][+-]?[0-9]+)?.
An integer literal produces a Python int; fraction or exponent produces a
float, kept as raw text. -/
def parseNum (s : List Char) : Option (JVal × List Char) :=
  let (sign, s1) := match s with
    | '-' :: r => (true, r)
    | _ => (false, s)
  match s1 with
  | [] => none
  | c :: _ =>
    if ¬ c.isDigit then none
    else
      let intPart := if c = '0' then ['0'] else s1.takeWhile Char.isDigit
      let s2 := if c = '0' then s1.drop 1 else s1.dropWhile Char.isDigit
      let (fracPart, s3) := match s2 with
        | '.' :: r =>
          let ds := r.takeWhile Char.isDigit
          if ds = [] then ([], s2) else ('.' :: ds, r.dropWhile Char.isDigit)
        | _ => ([], s2)
      let badFrac : Bool := match s2 with
        | '.' :: r => (r.takeWhile Char.isDigit).isEmpty
        | _ => false
      let (expPart, s4) := match s3 with
        | e :: r =>
          if e = 'e' ∨ e = 'E' then
            match r with
            | g :: r2 =>
              if g = '+' ∨ g = '-' then
                let ds := r2.takeWhile Char.isDigit
                if ds = [] then ([], s3) else (e :: g :: ds, r2.dropWhile Char.isDigit)
              else
                let ds := r.takeWhile Char.isDigit
                if ds = [] then ([], s3) else (e :: ds, r.dropWhile Char.isDigit)
            | [] => ([], s3)
          else ([], s3)
        | [] => ([], s3)
      if badFrac then none
      else if fracPart = [] ∧ expPart = [] then
        let mag : Nat := intPart.foldl (fun a d => 10 * a + (d.toNat - '0'.toNat)) 0
        some (.jint (if sign then - (mag : Int) else (mag : Int)), s2)
      else
        some (.jnum ((if sign then ['-'] else []) ++ intPart ++ fracPart ++ expPart), s4)

mutual

/-- json.loads value scanner (fuel-indexed; the callers pass enough fuel
for any input, and the theorems treat the parser as a whole). -/
def parseVal : Nat → List Char → Option (JVal × List Char)
  | 0, _ => none
  | Nat.succ f, s =>
    match skipWsJ s with
    | [] => none
    | c :: r =>
      if c = 't' then
        match r with
        | 'r' :: 'u' :: 'e' :: r2 => some (.jbool true, r2)
        | _ => none
      else if c = 'f' then
        match r with
        | 'a' :: 'l' :: 's' :: 'e' :: r2 => some (.jbool false, r2)
        | _ => none
      else if c = 'n' then
        match r with
        | 'u' :: 'l' :: 'l' :: r2 => some (.jnull, r2)
        | _ => none
      else if c = 'N' then
        match r with
        | 'a' :: 'N' :: r2 => some (.jnum ('n' :: 'a' :: 'n' :: []), r2)
        | _ => none
      else if c = 'I' then
        match r with
        | 'n' :: 'f' :: 'i' :: 'n' :: 'i' :: 't' :: 'y' :: r2 =>
          some (.jnum ('i' :: 'n' :: 'f' :: []), r2)
        | _ => none
      else if c = '"' then
        match parseJStrBody (r.length + 1) r with
        | some (b, r2) => some (.jstr b, r2)
        | none => none
      else if c = '\x7b' then
        parseObjRest f (c :: r)
      else if c = '[' then
        parseArrRest f (c :: r)
      else if c = '-' then
        match r with
        | 'I' :: 'n' :: 'f' :: 'i' :: 'n' :: 'i' :: 't' :: 'y' :: r2 =>
          some (.jnum ('-' :: 'i' :: 'n' :: 'f' :: []), r2)
        | _ => parseNum (c :: r)
      else parseNum (c :: r)

/-- After the opening brace of an object. -/
def parseObjRest : Nat → List Char → Option (JVal × List Char)
  | 0, _ => none
  | Nat.succ f, s =>
    match s with
    | c :: r =>
      if c = '\x7b' then
        match skipWsJ r with
        | '\x7d' :: r2 => some (.jobj [], r2)
        | r1 => parseMems f [] r1
      else none
    | [] => none

/-- Object members: "key": value (, "key": value)* then closing brace. -/
def parseMems : Nat → List (List Char × JVal) → List Char → Option (JVal × List Char)
  | 0, _, _ => none
  | Nat.succ f, acc, s =>
    match s with
    | '"' :: r =>
      match parseJStrBody (r.length + 1) r with
      | some (k, r2) =>
        match skipWsJ r2 with
        | ':' :: r3 =>
          match parseVal f r3 with
          | some (v, r4) =>
            match skipWsJ r4 with
            | ',' :: r5 => parseMems f (acc ++ [(k, v)]) (skipWsJ r5)
            | '\x7d' :: r5 => some (.jobj (acc ++ [(k, v)]), r5)
            | _ => none
          | none => none
        | _ => none
      | none => none
    | _ => none

/-- After the opening bracket of an array. -/
def parseArrRest : Nat → List Char → Option (JVal × List Char)
  | 0, _ => none
  | Nat.succ f, s =>
    match s with
    | c :: r =>
      if c = '[' then
        match skipWsJ r with
        | ']' :: r2 => some (.jarr [], r2)
        | r1 => parseElems f [] r1
      else none
    | [] => none

/-- Array elements. -/
def parseElems : Nat → List JVal → List Char → Option (JVal × List Char)
  | 0, _, _ => none
  | Nat.succ f, acc, s =>
    match parseVal f s with
    | some (v, r) =>
      match skipWsJ r with
      | ',' :: r2 => parseElems f (acc ++ [v]) r2
      | ']' :: r2 => some (.jarr (acc ++ [v]), r2)
      | _ => none
    | none => none

end

/-- Python json.loads: parse one value and require only whitespace after. -/
def json_loads (s : List Char) : Option JVal :=
  match parseVal (2 * s.length + 8) s with
  | some (v, rest) => if skipWsJ rest = [] then some v else none
  | none => none

/-!
## Python str() rendering of parsed values
-/

def natChars (n : Nat) : List Char := (Nat.repr n).toList

def intChars (i : Int) : List Char :=
  if i < 0 then '-' :: natChars i.natAbs else natChars i.natAbs

def hexDigit (n : Nat) : Char :=
  if n < 10 then Char.ofNat ('0'.toNat + n) else Char.ofNat ('a'.toNat + n - 10)

/-- Python repr() of one character inside a string repr (quote character q).
Non-printable below space (and delete) get backslash-x escapes; other
non-printable Unicode, which Python would also escape, is left verbatim
(never reached by these documents). -/
def pyReprEscC (q c : Char) : List Char :=
  if c = '\\' then ['\\', '\\']
  else if c = q then ['\\', q]
  else if c = '\n' then ['\\', 'n']
  else if c = '\r' then ['\\', 'r']
  else if c = '\t' then ['\\', 't']
  else if c.toNat < 32 ∨ c.toNat = 127 then
    ['\\', 'x', hexDigit (c.toNat / 16), hexDigit (c.toNat % 16)]
  else [c]

/-- Python repr() of a text value: single quotes preferred, double quotes
when the text has a single quote but no double quote. -/
def pyReprStr (s : List Char) : List Char :=
  let q := if s.contains '\'' ∧ ¬ s.contains '"' then '"' else '\''
  q :: (s.map (pyReprEscC q)).flatten ++ [q]

/-- Python dict lookup: the last duplicate key wins. -/
def objGet (fs : List (List Char × JVal)) (k : List Char) : Option JVal :=
  (fs.reverse.find? (fun p => p.1 = k)).map (fun p => p.2)

/-- Keys of a dict in insertion order: first occurrence position
(fuel-indexed; the filtered tail is never longer than the tail). -/
def dedupKeysF : Nat → List (List Char) → List (List Char)
  | 0, _ => []
  | _, [] => []
  | Nat.succ f, k :: rest => k :: dedupKeysF f (rest.filter (fun x => ¬ (x = k)))

def dedupKeys (ks : List (List Char)) : List (List Char) := dedupKeysF ks.length ks

def joinCommaSp (xs : List (List Char)) : List Char :=
  match xs with
  | [] => []
  | [x] => x
  | x :: rest => x ++ ',' :: ' ' :: joinCommaSp rest

/-- Python repr() of a value, fuel-indexed by structural size (the fuel
computed by pyRepr below is always sufficient). -/
def pyReprF : Nat → JVal → List Char
  | 0, _ => []
  | Nat.succ f, v =>
    match v with
    | .jnull => ('N' :: 'o' :: 'n' :: 'e' :: [])
    | .jbool true => ('T' :: 'r' :: 'u' :: 'e' :: [])
    | .jbool false => ('F' :: 'a' :: 'l' :: 's' :: 'e' :: [])
    | .jint i => intChars i
    | .jnum raw => raw
    | .jstr s => pyReprStr s
    | .jarr xs => '[' :: joinCommaSp (xs.map (pyReprF f)) ++ [']']
    | .jobj fs =>
      let pairs := (dedupKeys (fs.map (fun p => p.1))).map
        (fun k => pyReprStr k ++ ':' :: ' ' ::
          pyReprF f ((objGet fs k).getD .jnull))
      '\x7b' :: joinCommaSp pairs ++ ['\x7d']

mutual

def jSize : JVal → Nat
  | .jarr xs => 1 + jSizeL xs
  | .jobj fs => 1 + jSizeF fs
  | _ => 1

def jSizeL : List JVal → Nat
  | [] => 0
  | v :: rest => jSize v + jSizeL rest

def jSizeF : List (List Char × JVal) → Nat
  | [] => 0
  | p :: rest => jSize p.2 + jSizeF rest

end

def pyRepr (v : JVal) : List Char := pyReprF (jSize v) v

/-- Python str() of a value: a string renders as itself, anything else as
its repr. -/
def pyStr (v : JVal) : List Char :=
  match v with
  | .jstr s => s
  | v => pyRepr v

/-!
## keybindings-remove.py
-/

/-- Python text.find(c): index of the first occurrence or none. -/
def find_idx (c : Char) (s : List Char) : Option Nat := s.findIdx? (fun x => x = c)

/-- Python text.rfind(c): index of the last occurrence or none. -/
def rfind_idx (c : Char) (s : List Char) : Option Nat :=
  (s.reverse.findIdx? (fun x => x = c)).map (fun i => s.length - 1 - i)

/-- extract_preamble_postamble (identical in both tools): split at the
first open bracket and the last close bracket; degenerate inputs give
empty preamble and body with the whole text as postamble. -/
def extract_preamble_postamble (text : List Char) :
    List Char × List Char × List Char :=
  match find_idx '[' text, rfind_idx ']' text with
  | some st, some en =>
    if en < st then ([], [], text)
    else (text.take st, (text.drop (st + 1)).take (en - st - 1), text.drop (en + 1))
  | _, _ => ([], [], text)

/-- Inner loop of split_units: gather object lines by brace counting,
starting before the object.  Returns (object text, remaining lines). -/
def gatherObj (depth : Int) (started : Bool) :
    List (List Char) → List Char × List (List Char)
  | [] => ([], [])
  | line :: rest =>
    let started' := started ∨ line.contains '\x7b'
    let depth' := if line.contains '\x7b' then depth + (line.count '\x7b' : Int) else depth
    let objAdd := if started' then line else []
    if line.contains '\x7d' then
      if depth' - (line.count '\x7d' : Int) = 0 then (objAdd, rest)
      else
        (objAdd ++ (gatherObj (depth' - (line.count '\x7d' : Int)) started' rest).1,
         (gatherObj (depth' - (line.count '\x7d' : Int)) started' rest).2)
    else
      (objAdd ++ (gatherObj depth' started' rest).1, (gatherObj depth' started' rest).2)

theorem gatherObj_rest_le : ∀ ls d s, (gatherObj d s ls).2.length ≤ ls.length := by
  intro ls
  induction ls with
  | nil => intro d s; simp [gatherObj]
  | cons line rest ih =>
    intro d s
    rw [gatherObj.eq_def]
    simp only [List.length_cons]
    repeat' split
    all_goals dsimp only
    all_goals first
      | omega
      | (refine le_trans (ih _ _) ?_; omega)

/-- A line absorbed as trailing punctuation by split_units: blank,
comma-first, or comment-first after stripping. -/
def isTrailLine (l : List Char) : Bool :=
  let s := pyStrip l
  [','].isPrefixOf s ∨ s = [] ∨ ['/', '/'].isPrefixOf s ∨ ['/', '*'].isPrefixOf s

theorem gatherObj_rest_lt (line : List Char) (rest : List (List Char)) (d : Int) (s : Bool) :
    (gatherObj d s (line :: rest)).2.length < (line :: rest).length := by
  rw [gatherObj.eq_def]
  simp only [List.length_cons]
  repeat' split
  all_goals dsimp only
  all_goals first
    | omega
    | (refine lt_of_le_of_lt (gatherObj_rest_le rest _ _) ?_; omega)

/-- split_units: partition the array body lines into units
(leading comments, object text, trailing comma/comment text).
Comment lines after which no object follows are dropped
(the final break in the Python loop). -/
def split_units_go : Nat → List (List Char) →
    List (List Char × List Char × List Char)
  | 0, _ => []
  | Nat.succ f, ls =>
    match ls.dropWhile (fun l => ¬ l.contains '\x7b') with
    | [] => []
    | x :: xs =>
      let comments := ls.takeWhile (fun l => ¬ l.contains '\x7b')
      let obj := (gatherObj 0 false (x :: xs)).1
      let rest2 := (gatherObj 0 false (x :: xs)).2
      let trailing := rest2.takeWhile isTrailLine
      let rest3 := rest2.dropWhile isTrailLine
      (joinL comments, obj, joinL trailing) :: split_units_go f rest3

/-- split_units from keybindings-remove.py (the fuel covers one unit per
line, which gatherObj_rest_lt shows is ample). -/
def split_units (array_text : List Char) :
    List (List Char × List Char × List Char) :=
  split_units_go (splitLines array_text).length.succ (splitLines array_text)

/-- The text of a unit as written back out by the removal tool. -/
def unitText (u : List Char × List Char × List Char) : List Char :=
  u.1 ++ u.2.1 ++ u.2.2

/-- The non-greedy object-shaped span used by should_remove: from the
first open brace to the first close brace after it. -/
def extractBraceSpanNG (s : List Char) : Option (List Char) :=
  match s.dropWhile (fun c => ¬ (c = '\x7b')) with
  | [] => none
  | b :: r =>
    match hr : r.dropWhile (fun c => ¬ (c = '\x7d')) with
    | [] => none
    | c :: _ => some (b :: r.takeWhile (fun c => ¬ (c = '\x7d')) ++ [c])

/-- The greedy object-shaped span used by the sort tool: from the first
open brace to the last close brace after it. -/
def extractBraceSpanGreedy (s : List Char) : Option (List Char) :=
  match s.dropWhile (fun c => ¬ (c = '\x7b')) with
  | [] => none
  | b :: r =>
    match r.reverse.dropWhile (fun c => ¬ (c = '\x7d')) with
    | [] => none
    | c :: revCore => some (b :: (revCore.reverse ++ [c]))

/-- Comment/comma stripping followed by json.loads, succeeding only on a
dict (any other or failed parse raises and is caught by the callers). -/
def parseCleanObj (objStr : List Char) : Option (List (List Char × JVal)) :=
  match json_loads (strip_trailing_commas (strip_json_comments objStr)) with
  | some (.jobj fs) => some fs
  | _ => none

/-- should_remove from keybindings-remove.py: extract the non-greedy
brace span, strip comments and trailing commas, parse; on success test
whether the search string occurs in str(obj.get(attr, "")); any failure
gives False. -/
def should_remove (obj_text attr val : List Char) : Bool :=
  match extractBraceSpanNG obj_text with
  | none => false
  | some objStr =>
    match parseCleanObj objStr with
    | none => false
    | some fs => isSubstrOf val (pyStr ((objGet fs attr).getD (.jstr [])))

/-- main of keybindings-remove.py as a text transformer. -/
def remove_main (attr val text : List Char) : List Char :=
  let p := extract_preamble_postamble text
  let units := split_units p.2.1
  let kept := units.filter (fun u => ¬ should_remove u.2.1 attr val)
  p.1 ++ '[' :: ((kept.map unitText).flatten ++ ']' :: p.2.2) ++
    (if endsWithL ['\n'] p.2.2 then [] else ['\n'])

/-!
## keybindings-sort.py
-/

/-- State of the group_objects_with_comments line walk. -/
structure GState where
  groups : List (List Char × List Char)
  comments : List Char
  buf : List Char
  inObj : Bool
  depth : Int

/-- One line of the group_objects_with_comments walk.  Note that the
entering branch does not test the depth, so a single-line object closes
only on a subsequent line (faithful to the source). -/
def gstep (st : GState) (line : List Char) : GState :=
  if st.inObj then
    let d := st.depth + (line.count '\x7b' : Int) - (line.count '\x7d' : Int)
    if d = 0 then
      ⟨st.groups ++ [(st.comments, st.buf ++ line)], [], [], false, 0⟩
    else
      { st with buf := st.buf ++ line, depth := d }
  else
    if line.contains '\x7b' then
      { st with
          inObj := true
          depth := (line.count '\x7b' : Int) - (line.count '\x7d' : Int)
          buf := line }
    else
      { st with comments := st.comments ++ line }

/-- group_objects_with_comments: returns (groups, trailing comments).
An unterminated buffer at the end of the walk is discarded and the
pending comment text is reported as trailing. -/
def group_objects_with_comments (array_text : List Char) :
    List (List Char × List Char) × List Char :=
  let st := (splitLines array_text).foldl gstep ⟨[], [], [], false, 0⟩
  (st.groups, st.comments)

/-- A token of the natural-order key: a lowered non-digit run or the
numeric value of a digit run. -/
inductive NTok where
  | s : List Char → NTok
  | n : Nat → NTok
deriving DecidableEq

def lowerL (s : List Char) : List Char := s.map Char.toLower

def digitsToNat (ds : List Char) : Nat :=
  ds.foldl (fun a d => 10 * a + (d.toNat - '0'.toNat)) 0

/-- Maximal runs of characters grouped by the digit test, each tagged
with whether it is a digit run; adjacent runs alternate. -/
def splitDigitRuns : List Char → List (Bool × List Char)
  | [] => []
  | c :: rest =>
    match splitDigitRuns rest with
    | [] => [(c.isDigit, [c])]
    | (b, run) :: more =>
      if c.isDigit = b then (b, c :: run) :: more
      else (c.isDigit, [c]) :: (b, run) :: more

def runTok (r : Bool × List Char) : NTok :=
  if r.1 then .n (digitsToNat r.2) else .s (lowerL r.2)

/-- natural_key: re.split with a capturing digit group produces the
non-digit and digit runs in order, with an empty non-digit token added
before a leading digit run and after a trailing digit run (and a single
empty token for the empty string); digit runs become ints, non-digit
runs are lower-cased. -/
def runsKey : List (Bool × List Char) → List NTok
  | [] => [.s []]
  | r1 :: rs =>
    (if r1.1 then [NTok.s []] else []) ++ (r1 :: rs).map runTok ++
      (if ((r1 :: rs).getLast (by simp)).1 then [NTok.s []] else [])

def natural_key (str : List Char) : List NTok := runsKey (splitDigitRuns str)

/-- Ordering comparison of character lists (Python string comparison by
code point). -/
def lexCmpC : List Char → List Char → Ordering
  | [], [] => .eq
  | [], _ :: _ => .lt
  | _ :: _, [] => .gt
  | a :: as, b :: bs =>
    match compare a.toNat b.toNat with
    | .eq => lexCmpC as bs
    | o => o

/-- Comparison of natural-key tokens.  In any comparison the sort
actually performs, tokens at equal positions have the same constructor
(natural keys alternate text and number tokens, starting with text), so
the cross cases, on which Python would raise TypeError, are arbitrary. -/
def ntokCmp : NTok → NTok → Ordering
  | .s a, .s b => lexCmpC a b
  | .n a, .n b => compare a b
  | .s _, .n _ => .lt
  | .n _, .s _ => .gt

def lexCmpT : List NTok → List NTok → Ordering
  | [], [] => .eq
  | [], _ :: _ => .lt
  | _ :: _, [] => .gt
  | a :: as, b :: bs =>
    match ntokCmp a b with
    | .eq => lexCmpT as bs
    | o => o

/-- Python tuple comparison of sort keys. -/
def skeyCmp (x y : List NTok × List NTok × List Char) : Ordering :=
  (lexCmpT x.1 y.1).then ((lexCmpT x.2.1 y.2.1).then (lexCmpC x.2.2 y.2.2))

def keyChars : List Char := ('k' :: 'e' :: 'y' :: [])
def whenChars : List Char := ('w' :: 'h' :: 'e' :: 'n' :: [])
def commentChars : List Char := ('_' :: 'c' :: 'o' :: 'm' :: 'm' :: 'e' :: 'n' :: 't' :: [])

/-- extract_sort_keys: natural keys of the primary and secondary fields
plus the _comment value.  Parse failures give the minimal key.  Python
returns ([], "", "") there while successes carry lists; the second and
third slots are only ever compared between two failures (a failure's
first slot [] differs from every success's first slot, which is
nonempty), so the empty list faithfully models the empty string. -/
def extract_sort_keys (obj_text : List Char) (primaryWhen : Bool) :
    List NTok × List NTok × List Char :=
  match extractBraceSpanGreedy obj_text with
  | none => ([], [], [])
  | some objStr =>
    match parseCleanObj objStr with
    | none => ([], [], [])
    | some fs =>
      let keyV := pyStr ((objGet fs keyChars).getD (.jstr []))
      let whenV := pyStr ((objGet fs whenChars).getD (.jstr []))
      let commentV := pyStr ((objGet fs commentChars).getD (.jstr []))
      if primaryWhen then (natural_key whenV, natural_key keyV, commentV)
      else (natural_key keyV, natural_key whenV, commentV)

/-- extract_key_when: the (key, when) pair of a group, ("", "") on parse
failure. -/
def extract_key_when (obj_text : List Char) : List Char × List Char :=
  match extractBraceSpanGreedy obj_text with
  | none => ([], [])
  | some objStr =>
    match parseCleanObj objStr with
    | none => ([], [])
    | some fs =>
      (pyStr ((objGet fs keyChars).getD (.jstr [])),
       pyStr ((objGet fs whenChars).getD (.jstr [])))

/-- Scan of object_has_trailing_comma over the reversed stripped lines. -/
def oht_go : Bool → List (List Char) → Bool
  | _, [] => false
  | found, line :: rest =>
    let s := pyStrip line
    if s = [] then oht_go found rest
    else if ¬ found ∧ endsWithL ['\x7d'] s then oht_go true rest
    else if found then
      if [','].isPrefixOf s then true
      else if ['/', '/'].isPrefixOf s ∨ ['/', '*'].isPrefixOf s then oht_go found rest
      else false
    else oht_go found rest

/-- object_has_trailing_comma from keybindings-sort.py. -/
def object_has_trailing_comma (obj_text : List Char) : Bool :=
  oht_go false (splitLinesNK (pyRstrip obj_text)).reverse

/-- The substitution re.sub(r,\s*,+ anchored at the start, applied to
the text after the last close brace: leading whitespace directly
followed by a comma run is removed together with that run. -/
def stripLeadWsCommas (after : List Char) : List Char :=
  let r := after.dropWhile pyIsSpace
  if [','].isPrefixOf r then r.dropWhile (fun c => c = ',') else after

/-- Split at the last close brace: obj = core ++ brace ++ after. -/
def splitAtLastBrace (s : List Char) : Option (List Char × List Char) :=
  match s.reverse.dropWhile (fun c => ¬ (c = '\x7d')) with
  | [] => none
  | _ :: revCore =>
    some (revCore.reverse, (s.reverse.takeWhile (fun c => ¬ (c = '\x7d'))).reverse)

/-- The per-object output normalization in the sort main loop: rstrip,
then remove any comma run (with leading whitespace) directly after the
last close brace. -/
def obj_out_fix (obj : List Char) : List Char :=
  let o := pyRstrip obj
  match splitAtLastBrace o with
  | none => o
  | some (core, after) => core ++ '\x7d' :: stripLeadWsCommas after

/-- The f-string duplicate marker line appended to the comments of a
repeated (key, when) pair. -/
def dup_marker (kw : List Char × List Char) : List Char :=
  "// DUPLICATE key: ".toList ++ pyReprStr kw.1 ++
    " when: ".toList ++ pyReprStr kw.2 ++ ['\n']

/-- The output text of each sorted group, walked with the seen set.
A group is last exactly when no groups follow. -/
def emitUnits : List (List Char × List Char) → List (List Char × List Char) →
    List (List Char)
  | [], _ => []
  | (comments, obj) :: rest, seen =>
    let kw := extract_key_when obj
    let comments2 := if seen.contains kw then comments ++ dup_marker kw else comments
    let objOut := obj_out_fix obj
    let comma : List Char :=
      if rest = [] then [] else if object_has_trailing_comma objOut then [] else [',']
    (comments2 ++ objOut ++ comma ++ ['\n']) :: emitUnits rest (kw :: seen)

/-- Insert an element after every element that is le it: the insertion
step of a stable insertion sort. -/
def insertLe (le : α → α → Bool) (x : α) : List α → List α
  | [] => [x]
  | y :: ys => if le y x then y :: insertLe le x ys else x :: y :: ys

/-- Stable sort by a total preorder.  Python sorted is also a stable
sort, and a stable sort by a total preorder has a unique result (each
element goes to the position determined by the number of strictly
smaller elements and of equal elements before it), so insertion sort
models it exactly. -/
def pySorted (le : α → α → Bool) (l : List α) : List α :=
  l.foldl (fun acc x => insertLe le x acc) []

def groupLe (primaryWhen : Bool) (g1 g2 : List Char × List Char) : Bool :=
  ¬ (skeyCmp (extract_sort_keys g1.2 primaryWhen) (extract_sort_keys g2.2 primaryWhen) = .gt)

/-- main of keybindings-sort.py as a text transformer. -/
def sort_main (primaryWhen : Bool) (text : List Char) : List Char :=
  let p := extract_preamble_postamble text
  let g := group_objects_with_comments p.2.1
  let sortedGroups := pySorted (groupLe primaryWhen) g.1
  p.1 ++ '[' :: ((emitUnits sortedGroups []).flatten ++ g.2 ++ ']' :: p.2.2) ++
    (if endsWithL ['\n'] p.2.2 then [] else ['\n'])

/-!
## General helper lemmas
-/

theorem findIdx?_eq_none_of_not_contains {c : Char} {s : List Char}
    (h : s.contains c = false) : s.findIdx? (fun x => x = c) = none := by
  rw [List.findIdx?_eq_none_iff]
  intro x hx
  rw [List.contains_eq_any_beq] at h
  simp only [List.any_eq_false] at h
  have := h x hx
  simp at this
  simp only [decide_eq_false_iff_not]
  intro he
  exact this he.symm

theorem extract_degenerate (text : List Char)
    (h : text.contains '[' = false ∨ text.contains ']' = false ∨
      ∃ st en, find_idx '[' text = some st ∧ rfind_idx ']' text = some en ∧ en < st) :
    extract_preamble_postamble text = ([], [], text) := by
  rcases h with h | h | ⟨st, en, h1, h2, h3⟩
  · have : find_idx '[' text = none := findIdx?_eq_none_of_not_contains h
    rw [extract_preamble_postamble, this]
  · have hrev : text.reverse.contains ']' = false := by
      rw [List.contains_eq_any_beq] at h ⊢
      simpa using h
    have : rfind_idx ']' text = none := by
      rw [rfind_idx, findIdx?_eq_none_of_not_contains hrev]
      rfl
    rw [extract_preamble_postamble, this]
    cases find_idx '[' text <;> rfl
  · rw [extract_preamble_postamble, h1, h2]
    simp [h3]

/-!
## Claim C1
-/

/-- Claim C1, counterexample: on the bracket-free input "x" neither tool
returns the document unchanged; both prepend an empty bracket pair (and
append a newline). -/
theorem c1_counterexample :
    ¬ (remove_main ('a' :: []) ('b' :: []) ('x' :: []) = ('x' :: [])) ∧
    ¬ (sort_main false ('x' :: []) = ('x' :: [])) ∧
    ¬ (sort_main true ('x' :: []) = ('x' :: [])) := by
  decide

/-- Claim C1, amended: on input without a recognizable array (no open
bracket, no close bracket, or last close before first open) both tools
return the input text prefixed by an empty bracket pair, with a newline
appended when the input does not already end in one — not the unchanged
document. -/
theorem c1_no_array_output (text attr val : List Char) (primaryWhen : Bool)
    (h : text.contains '[' = false ∨ text.contains ']' = false ∨
      ∃ st en, find_idx '[' text = some st ∧ rfind_idx ']' text = some en ∧ en < st) :
    remove_main attr val text =
      '[' :: ']' :: (text ++ (if endsWithL ['\n'] text then [] else ['\n'])) ∧
    sort_main primaryWhen text =
      '[' :: ']' :: (text ++ (if endsWithL ['\n'] text then [] else ['\n'])) := by
  have hd := extract_degenerate text h
  constructor
  · rw [remove_main, hd]
    rfl
  · rw [sort_main, hd]
    rfl

/-- Witness for c1_no_array_output at the concrete input "x". -/
theorem c1_no_array_output_witness :
    remove_main ('a' :: []) ('b' :: []) ('x' :: []) =
      '[' :: ']' :: (('x' :: []) ++ (if endsWithL ['\n'] ('x' :: []) then [] else ['\n'])) :=
  (c1_no_array_output ('x' :: []) ('a' :: []) ('b' :: []) false
    (Or.inl (by decide))).1

/-!
## Claim C3
-/

/-- An object text whose string literal contains a comma directly
followed by a closing brace. -/
def c3obj : List Char := "\x7b\"a\": \"x,\x7d\"\x7d".toList

/-- Claim C3: comment stripping preserves the string literal, but the
trailing-comma strip is a raw regex pass that rewrites the ",brace"
inside the quoted string, so the combined stripping changes the string
contents from x,brace to xbrace — the code corrupts string literals. -/
theorem c3_string_corruption :
    strip_json_comments c3obj = c3obj ∧
    strip_trailing_commas (strip_json_comments c3obj) = "\x7b\"a\": \"x\x7d\"\x7d".toList ∧
    ¬ (strip_trailing_commas (strip_json_comments c3obj) = c3obj) := by
  decide

/-!
## Claim C2
-/

/-- A document whose array body is a lone comment line: split_units
drops it. -/
def c2doc : List Char := "[\n// c\n]".toList

/-- Claim C2, counterexample: on a document whose array body consists of
a comment line only, no unit matches (there are no units), yet the array
portion of the removal output is empty rather than byte-identical to the
input's array portion. -/
theorem c2_counterexample :
    (∀ u ∈ split_units (extract_preamble_postamble c2doc).2.1,
        should_remove u.2.1 ('k' :: []) ('z' :: []) = false) ∧
    ¬ ((extract_preamble_postamble
          (remove_main ('k' :: []) ('z' :: []) c2doc)).2.1 =
        (extract_preamble_postamble c2doc).2.1) := by
  constructor
  · decide
  · decide

/-- Claim C2, amended: when additionally the unit segmentation loses no
text (concatenating the units reproduces the array body — lone trailing
comment or junk lines after the last object are dropped by split_units,
which is what the counterexample exhibits), removal with a search string
that matches no unit returns preamble, bracket, the byte-identical array
body, bracket, and postamble verbatim (plus the usual final newline when
the postamble lacks one). -/
theorem c2_no_match_round_trip (text attr val : List Char)
    (hconcat : ((split_units (extract_preamble_postamble text).2.1).map unitText).flatten =
      (extract_preamble_postamble text).2.1)
    (hnone : ∀ u ∈ split_units (extract_preamble_postamble text).2.1,
      should_remove u.2.1 attr val = false) :
    remove_main attr val text =
      (extract_preamble_postamble text).1 ++
        '[' :: ((extract_preamble_postamble text).2.1 ++
          ']' :: (extract_preamble_postamble text).2.2) ++
        (if endsWithL ['\n'] (extract_preamble_postamble text).2.2 then [] else ['\n']) := by
  rw [remove_main]
  have hfilter : (split_units (extract_preamble_postamble text).2.1).filter
      (fun u => ¬ should_remove u.2.1 attr val) =
      split_units (extract_preamble_postamble text).2.1 := by
    rw [List.filter_eq_self]
    intro u hu
    simp [hnone u hu]
  rw [hfilter, hconcat]

/-- A well-formed two-part document for the witness. -/
def c2wdoc : List Char := "x[\n\x7b\n\"key\": \"a\"\n\x7d\n]y".toList

/-- Witness for c2_no_match_round_trip: a concrete document with one
unit whose attribute value does not contain the search string. -/
theorem c2_no_match_round_trip_witness :
    remove_main ('n' :: []) ('z' :: []) c2wdoc =
      (extract_preamble_postamble c2wdoc).1 ++
        '[' :: ((extract_preamble_postamble c2wdoc).2.1 ++
          ']' :: (extract_preamble_postamble c2wdoc).2.2) ++
        (if endsWithL ['\n'] (extract_preamble_postamble c2wdoc).2.2 then [] else ['\n']) :=
  c2_no_match_round_trip c2wdoc ('n' :: []) ('z' :: []) (by decide) (by decide)

/-!
## Claim C4
-/

/-- The spec's drop criterion, stated directly: the unit's object span
parses and the search string occurs, case-sensitively, in the string
form of the record's attribute value (empty string when absent); parse
failure never drops. -/
def spec_drop (objText attr val : List Char) : Bool :=
  match (extractBraceSpanNG objText).bind parseCleanObj with
  | some fs => isSubstrOf val (pyStr ((objGet fs attr).getD (.jstr [])))
  | none => false

theorem should_remove_eq_spec_drop (obj attr val : List Char) :
    should_remove obj attr val = spec_drop obj attr val := by
  cases h1 : extractBraceSpanNG obj with
  | none => simp [should_remove, spec_drop, h1]
  | some o =>
    cases h2 : parseCleanObj o with
    | none => simp [should_remove, spec_drop, h1, h2]
    | some fs => simp [should_remove, spec_drop, h1, h2]

/-- Claim C4: removal keeps exactly the units that do not satisfy the
spec's drop criterion (object span parses and the attribute value's
string form contains the search string, with "" for a missing
attribute), in their original order with their text unchanged; units
whose span fails to parse are always kept. -/
theorem c4_drop_criterion (text attr val : List Char) :
    (remove_main attr val text =
      (extract_preamble_postamble text).1 ++
        '[' :: ((((split_units (extract_preamble_postamble text).2.1).filter
            (fun u => ¬ spec_drop u.2.1 attr val)).map unitText).flatten ++
          ']' :: (extract_preamble_postamble text).2.2) ++
        (if endsWithL ['\n'] (extract_preamble_postamble text).2.2 then [] else ['\n'])) ∧
    (∀ u ∈ split_units (extract_preamble_postamble text).2.1,
      ((extractBraceSpanNG u.2.1).bind parseCleanObj).isNone = true →
        u ∈ (split_units (extract_preamble_postamble text).2.1).filter
          (fun u => ¬ spec_drop u.2.1 attr val)) := by
  constructor
  · rw [remove_main]
    have : ∀ u ∈ split_units (extract_preamble_postamble text).2.1,
        (¬ should_remove u.2.1 attr val : Bool) = (¬ spec_drop u.2.1 attr val : Bool) := by
      intro u _
      rw [should_remove_eq_spec_drop]
    rw [List.filter_congr this]
  · intro u hu hnone
    rw [Option.isNone_iff_eq_none] at hnone
    rw [List.mem_filter]
    refine ⟨hu, ?_⟩
    simp [spec_drop, hnone]

/-- A document with one unparseable unit and one unit whose k value
contains the search string. -/
def c4doc : List Char :=
  "[\n\x7b bad\n\x7d,\n\x7b\n\"k\": \"vv\"\n\x7d\n]\n".toList

/-- Witness for c4_drop_criterion: on the concrete document the
unparseable unit is kept by the filter. -/
theorem c4_drop_criterion_witness :
    (('\n' :: []), "\x7b bad\n\x7d,\n".toList, ([] : List Char)) ∈
      (split_units (extract_preamble_postamble c4doc).2.1).filter
        (fun u => ¬ spec_drop u.2.1 ('k' :: []) ('v' :: [])) := by
  refine (c4_drop_criterion c4doc ('k' :: []) ('v' :: [])).2 _ ?_ ?_
  · decide
  · decide

/-!
## Claim C10
-/

theorem isSubstrOf_nil (hay : List Char) : isSubstrOf [] hay = true := by
  cases hay with
  | nil => decide
  | cons c t =>
    rw [isSubstrOf, List.tails]
    simp [List.isPrefixOf]

/-- Claim C10: when every unit of the document parses, removal with the
empty search string removes every unit — the output is the preamble, an
empty bracket pair, and the postamble. -/
theorem c10_empty_search_removes_all (text attr : List Char)
    (hparse : ∀ u ∈ split_units (extract_preamble_postamble text).2.1,
      ((extractBraceSpanNG u.2.1).bind parseCleanObj).isSome = true) :
    remove_main attr [] text =
      (extract_preamble_postamble text).1 ++
        '[' :: (']' :: (extract_preamble_postamble text).2.2) ++
        (if endsWithL ['\n'] (extract_preamble_postamble text).2.2 then [] else ['\n']) := by
  rw [remove_main]
  have hfilter : (split_units (extract_preamble_postamble text).2.1).filter
      (fun u => ¬ should_remove u.2.1 attr []) = [] := by
    rw [List.filter_eq_nil_iff]
    intro u hu
    have := hparse u hu
    rw [should_remove_eq_spec_drop, spec_drop]
    cases hb : (extractBraceSpanNG u.2.1).bind parseCleanObj with
    | none => rw [hb] at this; simp at this
    | some fs => simp [isSubstrOf_nil]
  rw [hfilter]
  rfl

/-- Witness for c10_empty_search_removes_all at a concrete two-unit
document whose units both parse. -/
theorem c10_empty_search_removes_all_witness :
    remove_main ('k' :: []) [] "a[\n\x7b\n\"k\": \"1\"\n\x7d,\n\x7b\n\"w\": \"2\"\n\x7d\n]b".toList =
      (extract_preamble_postamble "a[\n\x7b\n\"k\": \"1\"\n\x7d,\n\x7b\n\"w\": \"2\"\n\x7d\n]b".toList).1 ++
        '[' :: (']' :: (extract_preamble_postamble "a[\n\x7b\n\"k\": \"1\"\n\x7d,\n\x7b\n\"w\": \"2\"\n\x7d\n]b".toList).2.2) ++
        (if endsWithL ['\n'] (extract_preamble_postamble "a[\n\x7b\n\"k\": \"1\"\n\x7d,\n\x7b\n\"w\": \"2\"\n\x7d\n]b".toList).2.2 then [] else ['\n']) :=
  c10_empty_search_removes_all _ _ (by decide)

/-!
## Claim C5
-/

theorem splitDigitRuns_head (c : Char) (t : List Char) :
    ∃ run more, splitDigitRuns (c :: t) = (c.isDigit, run) :: more := by
  rw [splitDigitRuns]
  cases h : splitDigitRuns t with
  | nil => exact ⟨[c], [], rfl⟩
  | cons r rs =>
    obtain ⟨b, run⟩ := r
    by_cases hb : c.isDigit = b
    · subst hb
      exact ⟨c :: run, rs, by simp⟩
    · refine ⟨[c], (b, run) :: rs, ?_⟩
      simp [hb]

theorem splitDigitRuns_digit_append (d s1 : List Char)
    (hd : d ≠ []) (hdall : ∀ c ∈ d, c.isDigit = true)
    (hs : ∀ c, s1.head? = some c → c.isDigit = false) :
    splitDigitRuns (d ++ s1) = (true, d) :: splitDigitRuns s1 := by
  induction d with
  | nil => exact absurd rfl hd
  | cons x d2 ih =>
    have hx : x.isDigit = true := hdall x (by simp)
    cases hd2 : d2 with
    | nil =>
      subst hd2
      cases hs1 : s1 with
      | nil =>
        subst hs1
        simp [splitDigitRuns, hx]
      | cons c t =>
        subst hs1
        obtain ⟨run, more, hrun⟩ := splitDigitRuns_head c t
        have hc : c.isDigit = false := hs c rfl
        rw [List.singleton_append, splitDigitRuns, hrun, hc, hx]
        simp
    | cons y d3 =>
      subst hd2
      have hrec := ih (by simp) (fun c hc => hdall c (by simp [hc]))
      rw [List.cons_append, splitDigitRuns, hrec]
      simp [hx]

theorem splitDigitRuns_nondigit_append (p rest : List Char)
    (hp : ∀ c ∈ p, c.isDigit = false) (hpne : p ≠ [])
    (hhead : ∀ c, rest.head? = some c → c.isDigit = true) :
    splitDigitRuns (p ++ rest) = (false, p) :: splitDigitRuns rest := by
  induction p with
  | nil => exact absurd rfl hpne
  | cons x p2 ih =>
    have hx : x.isDigit = false := hp x (by simp)
    cases hp2 : p2 with
    | nil =>
      subst hp2
      cases hrest : rest with
      | nil => simp [splitDigitRuns, hx]
      | cons c t =>
        subst hrest
        obtain ⟨run, more, hrun⟩ := splitDigitRuns_head c t
        have hc : c.isDigit = true := hhead c rfl
        rw [List.singleton_append, splitDigitRuns, hrun, hc, hx]
        simp
    | cons y p3 =>
      subst hp2
      have hrec := ih (fun c hc => hp c (by simp [hc])) (by simp)
      rw [List.cons_append, splitDigitRuns, hrec]
      simp [hx]

theorem runsKey_digit_cons (d : List Char) (rs : List (Bool × List Char))
    (hrs : rs = [] ∨ ∃ run more, rs = (false, run) :: more) :
    runsKey ((true, d) :: rs) = .s [] :: .n (digitsToNat d) :: runsKey rs := by
  rcases hrs with h | ⟨run, more, h⟩ <;> subst h <;> simp [runsKey, runTok]

theorem runsKey_nondigit_digit_cons (p d : List Char) (rs : List (Bool × List Char))
    (hrs : rs = [] ∨ ∃ run more, rs = (false, run) :: more) :
    runsKey ((false, p) :: (true, d) :: rs) =
      .s (lowerL p) :: .n (digitsToNat d) :: runsKey rs := by
  rcases hrs with h | ⟨run, more, h⟩ <;> subst h <;> simp [runsKey, runTok]

theorem splitDigitRuns_shape (s1 : List Char)
    (hs : ∀ c, s1.head? = some c → c.isDigit = false) :
    splitDigitRuns s1 = [] ∨ ∃ run more, splitDigitRuns s1 = (false, run) :: more := by
  cases s1 with
  | nil => left; rfl
  | cons c t =>
    right
    obtain ⟨run, more, hrun⟩ := splitDigitRuns_head c t
    rw [hs c rfl] at hrun
    exact ⟨run, more, hrun⟩

/-- Decomposition of the natural key of a string made of a non-digit
prefix, a maximal digit run, and a remainder not starting in a digit. -/
theorem natural_key_decomp (p d s1 : List Char)
    (hp : ∀ c ∈ p, c.isDigit = false)
    (hd : d ≠ []) (hdall : ∀ c ∈ d, c.isDigit = true)
    (hs : ∀ c, s1.head? = some c → c.isDigit = false) :
    natural_key (p ++ d ++ s1) =
      .s (lowerL p) :: .n (digitsToNat d) :: natural_key s1 := by
  have hshape := splitDigitRuns_shape s1 hs
  cases hpe : p with
  | nil =>
    subst hpe
    rw [List.nil_append, natural_key, splitDigitRuns_digit_append d s1 hd hdall hs,
      runsKey_digit_cons _ _ hshape, natural_key]
    rfl
  | cons x p2 =>
    rw [← hpe]
    have hdig : ∀ c, (d ++ s1).head? = some c → c.isDigit = true := by
      intro c hc
      cases d with
      | nil => exact absurd rfl hd
      | cons y t =>
        simp at hc
        subst hc
        exact hdall y (by simp)
    rw [List.append_assoc, natural_key,
      splitDigitRuns_nondigit_append p (d ++ s1) hp (by rw [hpe]; simp) hdig,
      splitDigitRuns_digit_append d s1 hd hdall hs,
      runsKey_nondigit_digit_cons _ _ _ hshape, natural_key]

theorem lexCmpC_self : ∀ a : List Char, lexCmpC a a = .eq := by
  intro a
  induction a with
  | nil => rfl
  | cons c t ih =>
    rw [lexCmpC]
    have h : compare c.toNat c.toNat = Ordering.eq := Nat.compare_eq_eq.2 rfl
    rw [h]
    exact ih

theorem ntokCmp_self (a : NTok) : ntokCmp a a = .eq := by
  cases a with
  | s x => simp [ntokCmp, lexCmpC_self]
  | n v => simp [ntokCmp, Nat.compare_eq_eq]

/-- Claim C5: the comparator on natural keys orders by position with
digit runs compared numerically and non-digit runs case-insensitively
(lower-cased before comparison), a strict prefix of token lists sorts
first, and in particular two strings sharing a non-digit prefix and
differing in a following digit run order by the numeric value of the
run, so ctrl+2 precedes ctrl+10. -/
theorem c5_natural_order :
    (∀ p d1 d2 s1 s2 : List Char,
      (∀ c ∈ p, c.isDigit = false) →
      d1 ≠ [] → d2 ≠ [] →
      (∀ c ∈ d1, c.isDigit = true) → (∀ c ∈ d2, c.isDigit = true) →
      (∀ c, s1.head? = some c → c.isDigit = false) →
      (∀ c, s2.head? = some c → c.isDigit = false) →
      digitsToNat d1 < digitsToNat d2 →
      lexCmpT (natural_key (p ++ d1 ++ s1)) (natural_key (p ++ d2 ++ s2)) = .lt) ∧
    (∀ s t : List NTok, ¬ (t = []) → lexCmpT s (s ++ t) = .lt) ∧
    lexCmpT (natural_key ("ctrl+2".toList)) (natural_key ("ctrl+10".toList)) = .lt ∧
    lexCmpT (natural_key ("Ctrl+A".toList)) (natural_key ("ctrl+a".toList)) = .eq := by
  refine ⟨?_, ?_, by decide, by decide⟩
  · intro p d1 d2 s1 s2 hp h1 h2 ha1 ha2 hs1 hs2 hlt
    rw [natural_key_decomp p d1 s1 hp h1 ha1 hs1,
      natural_key_decomp p d2 s2 hp h2 ha2 hs2]
    rw [lexCmpT, ntokCmp, lexCmpC_self]
    simp only []
    rw [lexCmpT, ntokCmp]
    have : compare (digitsToNat d1) (digitsToNat d2) = .lt := Nat.compare_eq_lt.2 hlt
    rw [this]
  · intro s t ht
    induction s with
    | nil =>
      cases t with
      | nil => exact absurd rfl ht
      | cons a u => rfl
    | cons a u ih =>
      rw [List.cons_append, lexCmpT, ntokCmp_self, ih]

/-- Witness for c5_natural_order: the universal clauses instantiated at
a2x versus a10y and at a concrete strict token prefix. -/
theorem c5_natural_order_witness :
    lexCmpT (natural_key ("a".toList ++ "2".toList ++ "x".toList))
        (natural_key ("a".toList ++ "10".toList ++ "y".toList)) = .lt ∧
    lexCmpT [NTok.n 3] ([NTok.n 3] ++ [NTok.s ('z' :: [])]) = .lt := by
  constructor
  · exact c5_natural_order.1 _ _ _ _ _ (by decide) (by decide) (by decide)
      (by decide) (by decide) (by decide) (by decide) (by decide)
  · exact c5_natural_order.2.1 _ _ (by decide)

/-!
## Claims C6 and C7: duplicate annotation
-/

/-- The (key, when) pair the sort main loop assigns to a group. -/
def pairOf (g : List Char × List Char) : List Char × List Char :=
  extract_key_when g.2

theorem emitUnits_length : ∀ (gs seen : List (List Char × List Char)),
    (emitUnits gs seen).length = gs.length := by
  intro gs
  induction gs with
  | nil => intro seen; rfl
  | cons g gs2 ih =>
    intro seen
    obtain ⟨c, o⟩ := g
    rw [emitUnits]
    simp only [List.length_cons, ih]

/-- Full characterization of the sort main loop output: the i-th emitted
text is the group's comments — extended by the duplicate marker exactly
when the group's (key, when) pair is in the initial seen set or equals
the pair of an earlier group — followed by the normalized object text,
a comma for every non-last group whose normalized object does not
already carry a trailing comma, and a newline. -/
theorem emitUnits_get? : ∀ (gs seen : List (List Char × List Char)) (i : Nat),
    (emitUnits gs seen)[i]? = (gs[i]?).map (fun g =>
      (if seen.contains (pairOf g) || ((gs.take i).map pairOf).contains (pairOf g)
       then g.1 ++ dup_marker (pairOf g) else g.1) ++
      obj_out_fix g.2 ++
      (if i + 1 = gs.length then []
       else if object_has_trailing_comma (obj_out_fix g.2) then [] else [',']) ++ ['\n']) := by
  intro gs
  induction gs with
  | nil => intro seen i; simp [emitUnits]
  | cons g gs2 ih =>
    intro seen i
    obtain ⟨c, o⟩ := g
    rw [emitUnits]
    cases i with
    | zero =>
      cases gs2 with
      | nil => simp [pairOf]
      | cons g2 gs3 =>
        have h1 : ¬ (g2 :: gs3 = []) := by simp
        have h2 : ¬ ((0 : Nat) + 1 = gs3.length + 1 + 1) := by omega
        simp [pairOf, h1, h2, List.append_assoc]
    | succ j =>
      simp only [List.getElem?_cons_succ]
      rw [ih]
      cases hj : gs2[j]? with
      | none => simp [hj]
      | some gg =>
        simp only [hj, Option.map_some', List.take_succ_cons, List.map_cons,
          List.contains_cons, List.length_cons, Option.some.injEq, pairOf]
        simp only [show (j + 1 + 1 = gs2.length + 1) ↔ (j + 1 = gs2.length) from by omega]
        cases extract_key_when gg.2 == extract_key_when o <;>
          cases seen.contains (extract_key_when gg.2) <;>
          cases (List.map pairOf (List.take j gs2)).contains (extract_key_when gg.2) <;>
            simp [pairOf, List.append_assoc]

/-- Number of (possibly overlapping) occurrences of a substring. -/
def substrCount (needle hay : List Char) : Nat :=
  hay.tails.countP (fun t => needle.isPrefixOf t)

/-- A document whose sorted groups are one unparseable unit followed by
one parsed unit without key or when fields. -/
def c6doc : List Char :=
  "[\n\x7b bad\n\x7d\n\x7b\n\"command\": \"x\"\n\x7d\n]\n".toList

def c6gs : List (List Char × List Char) :=
  (group_objects_with_comments (extract_preamble_postamble c6doc).2.1).1

/-- A three-unit scenario document: two units with identical key and
when and one distinct unit. -/
def c6sdoc : List Char :=
  "[\n\x7b\n\"key\": \"a\", \"when\": \"w\"\n\x7d,\n\x7b\n\"key\": \"b\"\n\x7d,\n\x7b\n\"key\": \"a\", \"when\": \"w\"\n\x7d\n]\n".toList

/-- Claim C6, counterexample: the document has one unit that fails to
parse and one successfully parsed unit (whose key and when are absent,
so its pair is ("","")); the parse failure is also assigned the pair
("","") and sorts first, so the first — and only — unit bearing that
pair among successfully parsed records still receives a duplicate
marker, contradicting the claim that the first bearer is unmarked. -/
theorem c6_counterexample :
    c6gs.map (fun g => ((extractBraceSpanGreedy g.2).bind parseCleanObj).isSome) =
      (false :: true :: []) ∧
    isSubstrOf ("// DUPLICATE key: '' when: ''\n\x7b\n\"command\": \"x\"".toList)
      (sort_main false c6doc) = true := by
  constructor
  · decide
  · decide

/-- Claim C6, amended: the pair of a group is the one extract_key_when
assigns (parse failures map to ("","")); the i-th sorted group is
emitted with a duplicate marker appended to its leading comments
exactly when its pair is already in the initial seen set union of the
pairs of earlier sorted groups, no group is removed, and in the
concrete scenario exactly the later of two identical units is marked
while the distinct unit is not. -/
theorem c6_duplicate_marking (gs : List (List Char × List Char)) (i : Nat) :
    (emitUnits gs []).length = gs.length ∧
    ((emitUnits gs [])[i]? = (gs[i]?).map (fun g =>
      (if ((gs.take i).map pairOf).contains (pairOf g)
       then g.1 ++ dup_marker (pairOf g) else g.1) ++
      obj_out_fix g.2 ++
      (if i + 1 = gs.length then []
       else if object_has_trailing_comma (obj_out_fix g.2) then [] else [',']) ++ ['\n'])) ∧
    substrCount ("DUPLICATE".toList) (sort_main false c6sdoc) = 1 ∧
    isSubstrOf ("// DUPLICATE key: 'a' when: 'w'\n\x7b\n\"key\": \"a\"".toList)
      (sort_main false c6sdoc) = true := by
  refine ⟨emitUnits_length gs [], ?_, by decide, by decide⟩
  have h := emitUnits_get? gs [] i
  simpa using h

/-!
## Claim C7
-/

/-- A document both of whose units fail to parse. -/
def c7doc : List Char := "[\n\x7b bad\n\x7d\n\x7b bad2\n\x7d\n]\n".toList

/-- Claim C7, counterexample: every unit of the document fails to
parse, yet the sort output carries a duplicate marker — parse-failed
units are not excluded from duplicate logic; they share the sentinel
pair ("","") and the second one is annotated. -/
theorem c7_counterexample :
    (∀ g ∈ (group_objects_with_comments (extract_preamble_postamble c7doc).2.1).1,
      ((extractBraceSpanGreedy g.2).bind parseCleanObj).isNone = true) ∧
    isSubstrOf ("// DUPLICATE key: '' when: ''".toList) (sort_main false c7doc) = true := by
  constructor
  · decide
  · decide

/-- Claim C7, amended: a unit whose object text fails to parse is never
dropped by either operation (removal always keeps it, sorting emits it,
with only the comma/whitespace normalization applied to every unit) and
is excluded from removal matching, but it does take part in duplicate
logic with the sentinel pair ("",""): it is marked iff an earlier
sorted unit carries the pair ("",""), and it causes a later unit with
that pair to be marked. -/
theorem c7_parse_failure (gs : List (List Char × List Char)) (i : Nat)
    (g : List Char × List Char) (hg : gs[i]? = some g)
    (hfail : ((extractBraceSpanGreedy g.2).bind parseCleanObj).isNone = true) :
    pairOf g = ([], []) ∧
    ((emitUnits gs [])[i]? = some (
      (if ((gs.take i).map pairOf).contains (([], []) : List Char × List Char)
       then g.1 ++ dup_marker ([], []) else g.1) ++
      obj_out_fix g.2 ++
      (if i + 1 = gs.length then []
       else if object_has_trailing_comma (obj_out_fix g.2) then [] else [',']) ++ ['\n'])) ∧
    (∀ attr val objT : List Char,
      ((extractBraceSpanNG objT).bind parseCleanObj).isNone = true →
      should_remove objT attr val = false) := by
  have hpair : pairOf g = ([], []) := by
    rw [pairOf, extract_key_when]
    cases hspan : extractBraceSpanGreedy g.2 with
    | none => rfl
    | some o =>
      rw [hspan] at hfail
      cases hparse : parseCleanObj o with
      | none => simp [hparse]
      | some fs => simp [Option.bind, hparse] at hfail
  refine ⟨hpair, ?_, ?_⟩
  · have h := emitUnits_get? gs [] i
    rw [hg] at h
    simpa [hpair] using h
  · intro attr val objT hno
    rw [should_remove_eq_spec_drop, spec_drop]
    rw [Option.isNone_iff_eq_none] at hno
    simp [hno]

/-- Witness for c7_parse_failure: the second unparseable unit of the
two-failure document is emitted with the duplicate marker. -/
theorem c7_parse_failure_witness :
    pairOf (([] : List Char), "\x7b bad2\n\x7d\n".toList) = ([], []) := by
  refine (c7_parse_failure
    ((group_objects_with_comments (extract_preamble_postamble c7doc).2.1).1) 1
    (([] : List Char), "\x7b bad2\n\x7d\n".toList) ?_ ?_).1
  · decide
  · decide

/-!
## Claim C8: comma normalization
-/

theorem not_mem_of_contains_false {c : Char} {s : List Char}
    (h : s.contains c = false) : ∀ x ∈ s, ¬ (x = c) := by
  intro x hx he
  subst he
  rw [List.contains_eq_any_beq] at h
  simp only [List.any_eq_false] at h
  have := h x hx
  simp at this

theorem splitAtLastBrace_spec (core tail : List Char)
    (h : tail.contains '\x7d' = false) :
    splitAtLastBrace (core ++ '\x7d' :: tail) = some (core, tail) := by
  rw [splitAtLastBrace]
  have hrev : (core ++ '\x7d' :: tail).reverse = tail.reverse ++ '\x7d' :: core.reverse := by
    simp
  have hall : ∀ a ∈ tail.reverse, (fun c => ¬ (c = '\x7d') : Char → Bool) a = true := by
    intro a ha
    simp only [decide_eq_true_eq]
    exact not_mem_of_contains_false h a (List.mem_reverse.1 ha)
  rw [hrev, List.dropWhile_append_of_pos hall, List.takeWhile_append_of_pos hall]
  rw [List.dropWhile_cons_of_neg (by simp), List.takeWhile_cons_of_neg (by simp)]
  simp

theorem pyRstrip_append_nonws (l : List Char) (c : Char) (h : pyIsSpace c = false) :
    pyRstrip (l ++ [c]) = l ++ [c] := by
  rw [pyRstrip]
  simp only [List.reverse_append, List.reverse_cons, List.reverse_nil, List.nil_append,
    List.singleton_append]
  rw [List.dropWhile_cons_of_neg (by simp [h])]
  simp

theorem pyRstrip_shape (s : List Char) :
    pyRstrip s = [] ∨ ∃ l c, pyRstrip s = l ++ [c] ∧ pyIsSpace c = false := by
  rw [pyRstrip]
  cases hd : s.reverse.dropWhile pyIsSpace with
  | nil => left; rfl
  | cons c r =>
    right
    refine ⟨r.reverse, c, by simp, ?_⟩
    have := List.head?_dropWhile_not pyIsSpace s.reverse
    rw [hd] at this
    simpa using this

theorem stripLeadWsCommas_all_commas (tail : List Char)
    (hcommas : (tail.dropWhile pyIsSpace).all (fun c => c = ',') = true)
    (hne : tail = [] ∨ ¬ (tail.dropWhile pyIsSpace = [])) :
    stripLeadWsCommas tail = [] := by
  rcases hne with h | h
  · subst h
    rfl
  · rw [stripLeadWsCommas]
    cases hd : tail.dropWhile pyIsSpace with
    | nil => exact absurd hd h
    | cons c r =>
      rw [hd] at hcommas
      simp only [List.all_cons, Bool.and_eq_true, decide_eq_true_eq] at hcommas
      obtain ⟨hc, hr⟩ := hcommas
      subst hc
      rw [if_pos (by simp [List.isPrefixOf])]
      rw [List.dropWhile_cons_of_pos (by simp)]
      rw [List.dropWhile_eq_nil_iff]
      intro x hx
      simp only [List.all_eq_true] at hr
      have := hr x hx
      simpa using this

theorem endsWithL_append_single (x : List Char) (c : Char) :
    endsWithL [c] (x ++ [c]) = true := by
  rw [endsWithL]
  simp [List.isPrefixOf]

theorem oht_go_found_no_comma : ∀ ls : List (List Char),
    (∀ l ∈ ls, ¬ ([','].isPrefixOf (pyStrip l) = true)) →
    oht_go true ls = false := by
  intro ls
  induction ls with
  | nil => intro _; rfl
  | cons l rest ih =>
    intro h
    rw [oht_go]
    simp only []
    by_cases hs : pyStrip l = []
    · rw [if_pos hs]
      exact ih (fun x hx => h x (by simp [hx]))
    · rw [if_neg hs]
      rw [if_neg (by simp)]
      rw [if_pos trivial]
      rw [if_neg (h l (by simp))]
      by_cases hcom : (['/', '/'].isPrefixOf (pyStrip l) = true ∨
          ['/', '*'].isPrefixOf (pyStrip l) = true)
      · rw [if_pos hcom]
        exact ih (fun x hx => h x (by simp [hx]))
      · rw [if_neg hcom]

theorem splitLines_append_single : ∀ (s : List Char) (c : Char), ¬ (c = '\n') →
    ∃ pre last, splitLines (s ++ [c]) = pre ++ [last ++ [c]] := by
  intro s c hc
  induction s with
  | nil =>
    refine ⟨[], [], ?_⟩
    rw [List.nil_append, splitLines]
    rw [if_neg hc]
    rfl
  | cons a s2 ih =>
    obtain ⟨pre, last, hsl⟩ := ih
    by_cases ha : a = '\n'
    · subst ha
      refine ⟨['\n'] :: pre, last, ?_⟩
      rw [List.cons_append, splitLines, if_pos rfl, hsl]
      rfl
    · rw [List.cons_append, splitLines, if_neg ha, hsl]
      cases pre with
      | nil =>
        refine ⟨[], a :: last, ?_⟩
        rw [List.nil_append]
        rfl
      | cons p0 ps =>
        refine ⟨(a :: p0) :: ps, last, ?_⟩
        rfl

theorem pyLstrip_append_ends (last : List Char) (c : Char) (hns : pyIsSpace c = false) :
    endsWithL [c] (pyLstrip (last ++ [c])) = true ∧ ¬ (pyLstrip (last ++ [c]) = []) := by
  rw [pyLstrip, List.dropWhile_append]
  cases hd : (last.dropWhile pyIsSpace).isEmpty
  · simp only [Bool.false_eq_true, if_neg]
    constructor
    · have : last.dropWhile pyIsSpace ++ [c] =
          (last.dropWhile pyIsSpace) ++ [c] := rfl
      rw [if_neg (by simp [hd])]
      exact endsWithL_append_single _ c
    · rw [if_neg (by simp [hd])]
      simp
  · rw [if_pos (by simp [hd])]
    rw [List.dropWhile_cons_of_neg (by simp [hns])]
    constructor
    · have := endsWithL_append_single [] c
      simpa using this
    · simp

/-- The canonical per-object form of the comma normalization: if the
rstripped object text ends at its final close brace except for optional
whitespace followed by commas, the normalization removes that tail
entirely and leaves the text ending exactly at the brace. -/
theorem obj_out_fix_canonical (obj core tail : List Char)
    (hsplit : pyRstrip obj = core ++ '\x7d' :: tail)
    (htail : tail.contains '\x7d' = false)
    (hcommas : (tail.dropWhile pyIsSpace).all (fun c => c = ',') = true) :
    obj_out_fix obj = core ++ ['\x7d'] := by
  have hne : tail = [] ∨ ¬ (tail.dropWhile pyIsSpace = []) := by
    cases ht : tail with
    | nil => left; rfl
    | cons t0 ts =>
      right
      intro hdw
      rw [List.dropWhile_eq_nil_iff] at hdw
      rcases pyRstrip_shape obj with h0 | ⟨l, c, hlc, hcns⟩
      · rw [h0] at hsplit
        exact absurd hsplit.symm (by simp)
      · rw [hlc] at hsplit
        have hlast : ((core ++ '\x7d' :: tail).getLast?) = some c := by
          rw [← hsplit]
          simp
        rw [ht] at hlast
        have h2 : ((core ++ '\x7d' :: t0 :: ts).getLast?) = ((t0 :: ts).getLast?) := by
          rw [List.getLast?_append, List.getLast?_cons_cons,
            List.getLast?_eq_getLast (t0 :: ts) (by simp)]
          rfl
        rw [h2] at hlast
        have hmem : c ∈ t0 :: ts := by
          rw [List.getLast?_eq_getLast (t0 :: ts) (by simp)] at hlast
          simp only [Option.some.injEq] at hlast
          rw [← hlast]
          exact List.getLast_mem _
        have := hdw c hmem
        simp [hcns] at this
  rw [obj_out_fix]
  simp only [hsplit]
  rw [splitAtLastBrace_spec core tail htail]
  show core ++ '\x7d' :: stripLeadWsCommas tail = core ++ ['\x7d']
  rw [stripLeadWsCommas_all_commas tail hcommas hne]

/-- Under the same shape conditions, when additionally no line of the
object begins (after stripping) with a comma, the normalized object is
not considered to already carry a trailing comma, so the main loop
appends exactly one comma to every non-last unit. -/
theorem object_has_trailing_comma_canonical (core : List Char)
    (hlines : ∀ l ∈ splitLinesNK (core ++ ['\x7d']),
      ¬ ([','].isPrefixOf (pyStrip l) = true)) :
    object_has_trailing_comma (core ++ ['\x7d']) = false := by
  rw [object_has_trailing_comma, pyRstrip_append_nonws core '\x7d' (by decide)]
  obtain ⟨pre, last, hsl⟩ := splitLines_append_single core '\x7d' (by decide)
  have hnk : splitLinesNK (core ++ ['\x7d']) =
      (pre.map (fun l => if endsWithL ['\n'] l then l.dropLast else l)) ++ [last ++ ['\x7d']] := by
    rw [splitLinesNK, hsl, List.map_append]
    congr 1
    have : endsWithL ['\n'] (last ++ ['\x7d']) = false := by
      rw [endsWithL]
      simp [List.isPrefixOf]
    simp [this]
  rw [hnk]
  simp only [List.reverse_append, List.reverse_cons, List.reverse_nil, List.nil_append,
    List.singleton_append]
  rw [oht_go]
  have hps : pyStrip (last ++ ['\x7d']) = pyLstrip (last ++ ['\x7d']) := by
    rw [pyStrip, pyRstrip_append_nonws last '\x7d' (by decide)]
  have hstrip2 := pyLstrip_append_ends last '\x7d' (by decide)
  rw [if_neg (by rw [hps]; exact hstrip2.2)]
  rw [if_pos (⟨by simp, by rw [hps]; exact hstrip2.1⟩ :
    ¬ false = true ∧ endsWithL ['\x7d'] (pyStrip (last ++ ['\x7d'])) = true)]
  apply oht_go_found_no_comma
  intro l hl
  apply hlines
  rw [hnk]
  rw [List.mem_append]
  left
  exact List.mem_reverse.1 hl

/-- A document whose first object is written comma-first: a line of the
object starts with a comma. -/
def c8doc : List Char :=
  "[\n\x7b\"key\": \"a\"\n,\"when\": \"w\"\n\x7d\n\x7b\"key\": \"b\"\n\x7d\n]\n".toList

def c8gs : List (List Char × List Char) :=
  (group_objects_with_comments (extract_preamble_postamble c8doc).2.1).1

/-- Claim C8, counterexample: the sorted output has two units and the
first (non-last) one is emitted ending at its close brace with no
trailing comma at all: object_has_trailing_comma misreads the
comma-first member line as an existing trailing comma, so no comma is
added — the non-last unit does not end with exactly one comma after its
final closing brace. -/
theorem c8_counterexample :
    (pySorted (groupLe false) c8gs).length = 2 ∧
    (emitUnits (pySorted (groupLe false) c8gs) [])[0]? =
      some ("\n\x7b\"key\": \"a\"\n,\"when\": \"w\"\n\x7d\n".toList) := by
  constructor
  · decide
  · decide

/-- Claim C8, amended: for units whose rstripped object text ends at its
final close brace except for optional whitespace directly followed by a
comma run, and none of whose lines begins (after stripping) with a
comma, the sort output normalizes commas exactly as claimed: any comma
run after the final brace is removed, every non-last unit is emitted
ending in brace-comma (exactly one comma, never duplicated), and the
last unit is emitted ending at the bare brace. -/
theorem c8_comma_normalization (gs : List (List Char × List Char)) (i : Nat)
    (g : List Char × List Char) (core tail : List Char)
    (hg : gs[i]? = some g)
    (hsplit : pyRstrip g.2 = core ++ '\x7d' :: tail)
    (htail : tail.contains '\x7d' = false)
    (hcommas : (tail.dropWhile pyIsSpace).all (fun c => c = ',') = true)
    (hlines : ∀ l ∈ splitLinesNK (core ++ ['\x7d']),
      ¬ ([','].isPrefixOf (pyStrip l) = true)) :
    (emitUnits gs [])[i]? = some (
      (if ((gs.take i).map pairOf).contains (pairOf g)
       then g.1 ++ dup_marker (pairOf g) else g.1) ++
      (core ++ ['\x7d']) ++
      (if i + 1 = gs.length then [] else [',']) ++ ['\n']) := by
  have hfix : obj_out_fix g.2 = core ++ ['\x7d'] :=
    obj_out_fix_canonical g.2 core tail hsplit htail hcommas
  have hoht := object_has_trailing_comma_canonical core hlines
  have h := emitUnits_get? gs [] i
  rw [hg] at h
  simp only [Option.map_some', hfix, hoht] at h
  rw [h]
  simp

/-- The canonical-form witness document. -/
def c8wdoc : List Char :=
  "[\n\x7b\n\"key\": \"a\"\n\x7d,\n\x7b\n\"key\": \"b\"\n\x7d\n]\n".toList

def c8wgs : List (List Char × List Char) :=
  pySorted (groupLe false)
    (group_objects_with_comments (extract_preamble_postamble c8wdoc).2.1).1

/-- Witness for c8_comma_normalization: the first (non-last) unit of the
concrete sorted document, whose object carries an old trailing comma, is
emitted with exactly one comma directly after its final brace. -/
theorem c8_comma_normalization_witness :
    (emitUnits c8wgs [])[0]? = some (
      (if ((c8wgs.take 0).map pairOf).contains
          (pairOf (('\n' :: []), "\x7b\n\"key\": \"a\"\n\x7d,\n".toList))
       then ('\n' :: []) ++ dup_marker (pairOf (('\n' :: []), "\x7b\n\"key\": \"a\"\n\x7d,\n".toList))
       else ('\n' :: [])) ++
      ("\x7b\n\"key\": \"a\"\n".toList ++ ['\x7d']) ++
      (if 0 + 1 = c8wgs.length then [] else [',']) ++ ['\n']) := by
  refine c8_comma_normalization c8wgs 0
    (('\n' :: []), "\x7b\n\"key\": \"a\"\n\x7d,\n".toList)
    ("\x7b\n\"key\": \"a\"\n".toList) ([','] : List Char) ?_ ?_ ?_ ?_ ?_
  · decide
  · decide
  · decide
  · decide
  · decide

/-!
## Claim C9: comparator laws
-/

theorem ordering_ne_gt (o : Ordering) : ¬ (o = .gt) ↔ o = .lt ∨ o = .eq := by
  cases o <;> simp

theorem lexCmpC_eq_iff : ∀ a b : List Char, lexCmpC a b = .eq ↔ a = b := by
  intro a
  induction a with
  | nil => intro b; cases b <;> simp [lexCmpC]
  | cons x xs ih =>
    intro b
    cases b with
    | nil => simp [lexCmpC]
    | cons y ys =>
      rw [lexCmpC]
      cases hc : compare x.toNat y.toNat with
      | eq =>
        have hxy : x = y := by
          have h1 : x.toNat = y.toNat := Nat.compare_eq_eq.1 hc
          exact Char.ext (UInt32.toNat.inj h1)
        simp [ih, hxy]
      | lt =>
        have : ¬ (x = y) := by
          intro he
          subst he
          rw [Nat.compare_eq_lt] at hc
          omega
        simp [this]
      | gt =>
        have : ¬ (x = y) := by
          intro he
          subst he
          rw [Nat.compare_eq_gt] at hc
          omega
        simp [this]

theorem lexCmpC_swap : ∀ a b : List Char, (lexCmpC a b).swap = lexCmpC b a := by
  intro a
  induction a with
  | nil => intro b; cases b <;> rfl
  | cons x xs ih =>
    intro b
    cases b with
    | nil => rfl
    | cons y ys =>
      rw [lexCmpC, lexCmpC]
      have hs : compare y.toNat x.toNat = (compare x.toNat y.toNat).swap :=
        (Nat.compare_swap _ _).symm
      rw [hs]
      cases hc : compare x.toNat y.toNat <;>
        simp only [Ordering.swap] <;>
        first
        | rfl
        | exact ih ys

theorem lexCmpC_lt_trans : ∀ a b c : List Char,
    lexCmpC a b = .lt → lexCmpC b c = .lt → lexCmpC a c = .lt := by
  intro a
  induction a with
  | nil =>
    intro b c h1 h2
    cases b with
    | nil => exact h2
    | cons y ys => cases c with
      | nil => simp [lexCmpC] at h2
      | cons z zs => rfl
  | cons x xs ih =>
    intro b c h1 h2
    cases b with
    | nil => simp [lexCmpC] at h1
    | cons y ys =>
      cases c with
      | nil => simp [lexCmpC] at h2
      | cons z zs =>
        rw [lexCmpC] at h1 h2 ⊢
        cases hxy : compare x.toNat y.toNat with
        | gt => rw [hxy] at h1; simp at h1
        | lt =>
          rw [hxy] at h1
          cases hyz : compare y.toNat z.toNat with
          | gt => rw [hyz] at h2; simp at h2
          | lt =>
            have h3 : compare x.toNat z.toNat = .lt := by
              rw [Nat.compare_eq_lt] at hxy hyz ⊢
              omega
            rw [h3]
          | eq =>
            have he := Nat.compare_eq_eq.1 hyz
            have h3 : compare x.toNat z.toNat = .lt := by
              rw [Nat.compare_eq_lt] at hxy ⊢
              omega
            rw [h3]
        | eq =>
          rw [hxy] at h1
          have he := Nat.compare_eq_eq.1 hxy
          cases hyz : compare y.toNat z.toNat with
          | gt => rw [hyz] at h2; simp at h2
          | lt =>
            have h3 : compare x.toNat z.toNat = .lt := by
              rw [Nat.compare_eq_lt] at hyz ⊢
              omega
            rw [h3]
          | eq =>
            have he2 := Nat.compare_eq_eq.1 hyz
            have h3 : compare x.toNat z.toNat = .eq := by
              rw [Nat.compare_eq_eq]
              omega
            rw [h3]
            rw [hyz] at h2
            exact ih ys zs h1 h2

theorem ntokCmp_eq_iff : ∀ a b : NTok, ntokCmp a b = .eq ↔ a = b := by
  intro a b
  cases a <;> cases b <;> simp [ntokCmp, lexCmpC_eq_iff, Nat.compare_eq_eq]

theorem ntokCmp_swap : ∀ a b : NTok, (ntokCmp a b).swap = ntokCmp b a := by
  intro a b
  cases a with
  | s x =>
    cases b with
    | s y => exact lexCmpC_swap x y
    | n m => rfl
  | n v =>
    cases b with
    | s y => rfl
    | n m => exact Nat.compare_swap v m

theorem ntokCmp_lt_trans : ∀ a b c : NTok,
    ntokCmp a b = .lt → ntokCmp b c = .lt → ntokCmp a c = .lt := by
  intro a b c h1 h2
  cases a <;> cases b <;> cases c <;>
    simp [ntokCmp] at h1 h2 ⊢ <;>
    first
    | exact lexCmpC_lt_trans _ _ _ h1 h2
    | (rw [Nat.compare_eq_lt] at h1 h2 ⊢; omega)

theorem lexCmpT_eq_iff : ∀ a b : List NTok, lexCmpT a b = .eq ↔ a = b := by
  intro a
  induction a with
  | nil => intro b; cases b <;> simp [lexCmpT]
  | cons x xs ih =>
    intro b
    cases b with
    | nil => simp [lexCmpT]
    | cons y ys =>
      rw [lexCmpT]
      cases hc : ntokCmp x y with
      | eq =>
        have he := (ntokCmp_eq_iff _ _).1 hc
        subst he
        simp [ih]
      | lt =>
        have : ¬ (x = y) := fun he => by
          subst he
          rw [(ntokCmp_eq_iff _ _).2 rfl] at hc
          exact absurd hc (by decide)
        simp [this]
      | gt =>
        have : ¬ (x = y) := fun he => by
          subst he
          rw [(ntokCmp_eq_iff _ _).2 rfl] at hc
          exact absurd hc (by decide)
        simp [this]

theorem lexCmpT_swap : ∀ a b : List NTok, (lexCmpT a b).swap = lexCmpT b a := by
  intro a
  induction a with
  | nil => intro b; cases b <;> rfl
  | cons x xs ih =>
    intro b
    cases b with
    | nil => rfl
    | cons y ys =>
      rw [lexCmpT, lexCmpT]
      have hs : ntokCmp y x = (ntokCmp x y).swap := (ntokCmp_swap x y).symm
      rw [hs]
      cases hc : ntokCmp x y <;>
        simp only [Ordering.swap] <;>
        first
        | rfl
        | exact ih ys

theorem lexCmpT_lt_trans : ∀ a b c : List NTok,
    lexCmpT a b = .lt → lexCmpT b c = .lt → lexCmpT a c = .lt := by
  intro a
  induction a with
  | nil =>
    intro b c h1 h2
    cases b with
    | nil => exact h2
    | cons y ys => cases c with
      | nil => simp [lexCmpT] at h2
      | cons z zs => rfl
  | cons x xs ih =>
    intro b c h1 h2
    cases b with
    | nil => simp [lexCmpT] at h1
    | cons y ys =>
      cases c with
      | nil => simp [lexCmpT] at h2
      | cons z zs =>
        rw [lexCmpT] at h1 h2 ⊢
        cases hxy : ntokCmp x y with
        | gt => rw [hxy] at h1; simp at h1
        | lt =>
          rw [hxy] at h1
          cases hyz : ntokCmp y z with
          | gt => rw [hyz] at h2; simp at h2
          | lt => rw [ntokCmp_lt_trans x y z hxy hyz]
          | eq =>
            have he := (ntokCmp_eq_iff _ _).1 hyz
            subst he
            rw [hxy]
        | eq =>
          have he := (ntokCmp_eq_iff _ _).1 hxy
          subst he
          rw [hxy] at h1
          cases hyz : ntokCmp x z with
          | gt => rw [hyz] at h2; simp at h2
          | lt => rfl
          | eq =>
            rw [hyz] at h2
            exact ih ys zs h1 h2

theorem skeyCmp_swap (a b : List NTok × List NTok × List Char) :
    (skeyCmp a b).swap = skeyCmp b a := by
  rw [skeyCmp, skeyCmp]
  rw [← lexCmpT_swap a.1 b.1, ← lexCmpT_swap a.2.1 b.2.1, ← lexCmpC_swap a.2.2 b.2.2]
  cases lexCmpT a.1 b.1 <;> cases lexCmpT a.2.1 b.2.1 <;> cases lexCmpC a.2.2 b.2.2 <;> rfl

theorem skeyCmp_trans_ne_gt (a b c : List NTok × List NTok × List Char)
    (h1 : ¬ (skeyCmp a b = .gt)) (h2 : ¬ (skeyCmp b c = .gt)) :
    ¬ (skeyCmp a c = .gt) := by
  have hltt : ∀ y : Ordering, Ordering.lt.then y = Ordering.lt := fun _ => rfl
  have heqt : ∀ y : Ordering, Ordering.eq.then y = y := fun _ => rfl
  rw [skeyCmp] at h1 h2 ⊢
  cases hab1 : lexCmpT a.1 b.1 with
  | gt => rw [hab1] at h1; exact absurd rfl h1
  | lt =>
    cases hbc1 : lexCmpT b.1 c.1 with
    | gt => rw [hbc1] at h2; exact absurd rfl h2
    | lt => rw [lexCmpT_lt_trans _ _ _ hab1 hbc1, hltt]; simp
    | eq =>
      have he := (lexCmpT_eq_iff _ _).1 hbc1
      rw [← he, hab1, hltt]
      simp
  | eq =>
    have he := (lexCmpT_eq_iff _ _).1 hab1
    rw [hab1, heqt] at h1
    cases hbc1 : lexCmpT b.1 c.1 with
    | gt => rw [hbc1] at h2; exact absurd rfl h2
    | lt => rw [he, hbc1, hltt]; simp
    | eq =>
      rw [hbc1, heqt] at h2
      rw [he, hbc1, heqt]
      cases hab2 : lexCmpT a.2.1 b.2.1 with
      | gt => rw [hab2] at h1; exact absurd rfl h1
      | lt =>
        cases hbc2 : lexCmpT b.2.1 c.2.1 with
        | gt => rw [hbc2] at h2; exact absurd rfl h2
        | lt => rw [lexCmpT_lt_trans _ _ _ hab2 hbc2, hltt]; simp
        | eq =>
          have hf := (lexCmpT_eq_iff _ _).1 hbc2
          rw [← hf, hab2, hltt]
          simp
      | eq =>
        have hf := (lexCmpT_eq_iff _ _).1 hab2
        rw [hab2, heqt] at h1
        cases hbc2 : lexCmpT b.2.1 c.2.1 with
        | gt => rw [hbc2] at h2; exact absurd rfl h2
        | lt => rw [hf, hbc2, hltt]; simp
        | eq =>
          rw [hbc2, heqt] at h2
          rw [hf, hbc2, heqt]
          cases hab3 : lexCmpC a.2.2 b.2.2 with
          | gt => rw [hab3] at h1; exact absurd rfl h1
          | lt =>
            cases hbc3 : lexCmpC b.2.2 c.2.2 with
            | gt => rw [hbc3] at h2; exact absurd rfl h2
            | lt => rw [lexCmpC_lt_trans _ _ _ hab3 hbc3]; simp
            | eq =>
              have hg := (lexCmpC_eq_iff _ _).1 hbc3
              rw [← hg, hab3]
              simp
          | eq =>
            have hg := (lexCmpC_eq_iff _ _).1 hab3
            cases hbc3 : lexCmpC b.2.2 c.2.2 with
            | gt => rw [hbc3] at h2; exact absurd rfl h2
            | lt => rw [hg, hbc3]; simp
            | eq => rw [hg, hbc3]; simp

theorem groupLe_trans (pw : Bool) (a b c : List Char × List Char)
    (h1 : groupLe pw a b = true) (h2 : groupLe pw b c = true) :
    groupLe pw a c = true := by
  rw [groupLe] at h1 h2 ⊢
  simp only [decide_eq_true_eq] at h1 h2 ⊢
  exact skeyCmp_trans_ne_gt _ _ _ h1 h2

theorem groupLe_total (pw : Bool) (a b : List Char × List Char)
    (h : groupLe pw a b = false) : groupLe pw b a = true := by
  rw [groupLe] at h ⊢
  simp only [decide_eq_false_iff_not, Decidable.not_not] at h
  simp only [decide_eq_true_eq]
  rw [← skeyCmp_swap, h]
  simp [Ordering.swap]

/-!
## Claim C9: stable insertion sort laws
-/

theorem mem_insertLe {α : Type} (le : α → α → Bool) (x a : α) :
    ∀ l : List α, a ∈ insertLe le x l ↔ a = x ∨ a ∈ l := by
  intro l
  induction l with
  | nil => simp [insertLe]
  | cons y ys ih =>
    rw [insertLe]
    by_cases hle : le y x = true
    · rw [if_pos hle]
      simp only [List.mem_cons, ih]
      tauto
    · rw [if_neg hle]
      simp only [List.mem_cons]

theorem insertLe_sorted {α : Type} (le : α → α → Bool)
    (htrans : ∀ a b c, le a b = true → le b c = true → le a c = true)
    (htot : ∀ a b, le a b = false → le b a = true) (x : α) :
    ∀ l : List α, l.Pairwise (fun a b => le a b = true) →
      (insertLe le x l).Pairwise (fun a b => le a b = true) := by
  intro l
  induction l with
  | nil => intro _; simp [insertLe]
  | cons y ys ih =>
    intro hp
    rw [List.pairwise_cons] at hp
    rw [insertLe]
    by_cases hle : le y x = true
    · rw [if_pos hle]
      rw [List.pairwise_cons]
      constructor
      · intro a ha
        rw [mem_insertLe] at ha
        rcases ha with h | h
        · subst h; exact hle
        · exact hp.1 a h
      · exact ih hp.2
    · rw [if_neg hle]
      rw [List.pairwise_cons]
      constructor
      · intro a ha
        rw [List.mem_cons] at ha
        rcases ha with h | h
        · rw [h]
          exact htot y x (by simpa using hle)
        · exact htrans x y a
            (htot y x (by simpa using hle)) (hp.1 a h)
      · rw [List.pairwise_cons]
        exact hp

theorem pySorted_sorted {α : Type} (le : α → α → Bool)
    (htrans : ∀ a b c, le a b = true → le b c = true → le a c = true)
    (htot : ∀ a b, le a b = false → le b a = true) (l : List α) :
    (pySorted le l).Pairwise (fun a b => le a b = true) := by
  rw [pySorted]
  have : ∀ (l2 : List α) (acc : List α),
      acc.Pairwise (fun a b => le a b = true) →
      (l2.foldl (fun acc x => insertLe le x acc) acc).Pairwise (fun a b => le a b = true) := by
    intro l2
    induction l2 with
    | nil => intro acc h; exact h
    | cons x xs ih =>
      intro acc h
      rw [List.foldl_cons]
      exact ih _ (insertLe_sorted le htrans htot x acc h)
  exact this l [] (by simp)

theorem mem_pySorted {α : Type} (le : α → α → Bool) (a : α) (l : List α) :
    a ∈ pySorted le l ↔ a ∈ l := by
  rw [pySorted]
  have : ∀ (l2 acc : List α),
      (a ∈ l2.foldl (fun acc x => insertLe le x acc) acc ↔ a ∈ acc ∨ a ∈ l2) := by
    intro l2
    induction l2 with
    | nil => intro acc; simp
    | cons x xs ih =>
      intro acc
      rw [List.foldl_cons, ih, mem_insertLe]
      simp only [List.mem_cons]
      tauto
  rw [this l []]
  simp

theorem insertLe_all_le {α : Type} (le : α → α → Bool) (x : α) :
    ∀ l : List α, (∀ y ∈ l, le y x = true) → insertLe le x l = l ++ [x] := by
  intro l
  induction l with
  | nil => intro _; rfl
  | cons y ys ih =>
    intro h
    rw [insertLe, if_pos (h y (by simp)), ih (fun z hz => h z (by simp [hz]))]
    rfl

theorem pySorted_of_sorted {α : Type} (le : α → α → Bool) (l : List α)
    (h : l.Pairwise (fun a b => le a b = true)) : pySorted le l = l := by
  rw [pySorted]
  have : ∀ (l2 acc : List α),
      (acc ++ l2).Pairwise (fun a b => le a b = true) →
      l2.foldl (fun acc x => insertLe le x acc) acc = acc ++ l2 := by
    intro l2
    induction l2 with
    | nil => intro acc _; simp
    | cons x xs ih =>
      intro acc hp
      rw [List.foldl_cons]
      have hall : ∀ y ∈ acc, le y x = true := by
        intro y hy
        rw [List.pairwise_append] at hp
        exact hp.2.2 y hy x (by simp)
      rw [insertLe_all_le le x acc hall]
      have : (acc ++ [x]) ++ xs = acc ++ x :: xs := by simp
      rw [ih (acc ++ [x]) (by rw [this]; exact hp)]
      rw [this]
  exact this l [] (by simpa using h)

/-!
## Claim C9: line splitting laws
-/

theorem splitLines_ne_nil : ∀ s : List Char, ¬ (s = []) → ¬ (splitLines s = []) := by
  intro s hs
  cases s with
  | nil => exact absurd rfl hs
  | cons c rest =>
    rw [splitLines]
    by_cases hc : c = '\n'
    · rw [if_pos hc]; simp
    · rw [if_neg hc]
      cases splitLines rest <;> simp

theorem joinL_splitLines : ∀ s : List Char, joinL (splitLines s) = s := by
  intro s
  induction s with
  | nil => rfl
  | cons c rest ih =>
    rw [splitLines]
    by_cases hc : c = '\n'
    · rw [if_pos hc, hc]
      simp only [joinL, List.flatten_cons] at ih ⊢
      rw [ih]
      rfl
    · rw [if_neg hc]
      cases hrest : splitLines rest with
      | nil =>
        have : rest = [] := by
          by_cases h : rest = []
          · exact h
          · exact absurd hrest (splitLines_ne_nil rest h)
        subst this
        simp [joinL]
      | cons l ls =>
        rw [hrest] at ih
        simp only [joinL, List.flatten_cons] at ih ⊢
        rw [List.cons_append, ih]

theorem endsWithL_cons_of_ne_nil (x c : Char) (rest : List Char) (h : ¬ (rest = [])) :
    endsWithL [x] (c :: rest) = endsWithL [x] rest := by
  rw [endsWithL, endsWithL]
  simp only [List.reverse_cons]
  cases hrev : rest.reverse with
  | nil =>
    exact absurd (by simpa using congrArg List.reverse hrev) h
  | cons r rs =>
    simp [List.isPrefixOf]

theorem splitLines_append_nl : ∀ a b : List Char, endsWithL ['\n'] a = true →
    splitLines (a ++ b) = splitLines a ++ splitLines b := by
  intro a
  induction a with
  | nil => intro b h; simp [endsWithL, List.isPrefixOf] at h
  | cons c rest ih =>
    intro b h
    rw [List.cons_append, splitLines]
    by_cases hc : c = '\n'
    · subst hc
      cases hr : rest with
      | nil =>
        rw [if_pos rfl]
        subst hr
        simp [splitLines]
      | cons r0 rs =>
        rw [if_pos rfl]
        have hrest : endsWithL ['\n'] rest = true := by
          rw [← endsWithL_cons_of_ne_nil '\n' '\n' rest (by rw [hr]; simp)]
          exact h
        rw [← hr, ih b hrest, splitLines, if_pos rfl]
        rw [hr]
        rfl
    · have hne : ¬ (rest = []) := by
        intro he
        subst he
        rw [endsWithL] at h
        simp [List.isPrefixOf] at h
        exact hc h.symm
      have hrest : endsWithL ['\n'] rest = true := by
        rw [← endsWithL_cons_of_ne_nil '\n' c rest hne]
        exact h
      rw [if_neg hc, ih b hrest]
      cases hrs : splitLines rest with
      | nil => exact absurd hrs (splitLines_ne_nil rest hne)
      | cons l ls =>
        rw [splitLines, if_neg hc, hrs]
        rfl

theorem splitLines_no_nl : ∀ u : List Char, (∀ x ∈ u, ¬ (x = '\n')) →
    splitLines (u ++ ['\n']) = [u ++ ['\n']] := by
  intro u
  induction u with
  | nil => intro _; rfl
  | cons c u2 ih =>
    intro h
    rw [List.cons_append, splitLines, if_neg (h c (by simp)),
      ih (fun x hx => h x (by simp [hx]))]

/-- The complete lines and the final partial line of a prefix text are
independent of the rest of the final line. -/
theorem splitLines_append_line : ∀ s : List Char,
    ∃ pre l, ∀ v : List Char, (∀ x ∈ v, ¬ (x = '\n')) →
      splitLines (s ++ v ++ ['\n']) = pre ++ [l ++ v ++ ['\n']] := by
  intro s
  induction s with
  | nil =>
    refine ⟨[], [], ?_⟩
    intro v hv
    rw [List.nil_append, splitLines_no_nl v hv]
    rfl
  | cons c s2 ih =>
    obtain ⟨pre, l, hpl⟩ := ih
    by_cases hc : c = '\n'
    · subst hc
      refine ⟨['\n'] :: pre, l, ?_⟩
      intro v hv
      simp only [List.cons_append]
      rw [splitLines, if_pos rfl, hpl v hv]
    · cases hpre : pre with
      | nil =>
        refine ⟨[], c :: l, ?_⟩
        intro v hv
        simp only [List.cons_append]
        rw [splitLines, if_neg hc, hpl v hv, hpre]
        rfl
      | cons p0 ps =>
        refine ⟨(c :: p0) :: ps, l, ?_⟩
        intro v hv
        simp only [List.cons_append]
        rw [splitLines, if_neg hc, hpl v hv, hpre]
        rfl

/-!
## Claim C9: regrouping emitted output
-/

/-- Depth walk over the lines of an object after the first: every
intermediate line leaves a nonzero depth and the final line returns the
depth to zero. -/
def objWalk : Int → List (List Char) → Bool
  | _, [] => false
  | d, [l] => decide (d + (l.count '\x7b' : Int) - (l.count '\x7d' : Int) = 0)
  | d, l :: l2 :: rest =>
    (!decide (d + (l.count '\x7b' : Int) - (l.count '\x7d' : Int) = 0)) &&
      objWalk (d + (l.count '\x7b' : Int) - (l.count '\x7d' : Int)) (l2 :: rest)

/-- The line list of an object text that the grouping walk consumes as
exactly one group: the first line opens a brace and the depth returns to
zero exactly at the last line. -/
def objLinesOK : List (List Char) → Bool
  | [] => false
  | l1 :: rest =>
    l1.contains '\x7b' &&
      objWalk ((l1.count '\x7b' : Int) - (l1.count '\x7d' : Int)) rest

theorem gstep_obj_walk : ∀ (rest : List (List Char)) (d : Int) (buf C : List Char)
    (G : List (List Char × List Char)), objWalk d rest = true →
    List.foldl gstep ⟨G, C, buf, true, d⟩ rest =
      ⟨G ++ [(C, buf ++ joinL rest)], [], [], false, 0⟩ := by
  intro rest
  induction rest with
  | nil => intro d buf C G h; simp [objWalk] at h
  | cons l rest2 ih =>
    intro d buf C G h
    cases rest2 with
    | nil =>
      simp only [objWalk, decide_eq_true_eq] at h
      simp only [List.foldl_cons, List.foldl_nil, gstep, if_pos, h, if_true]
      simp [joinL]
    | cons l2 rest3 =>
      simp only [objWalk, Bool.and_eq_true, Bool.not_eq_true',
        decide_eq_false_iff_not] at h
      obtain ⟨hne, hw⟩ := h
      have hstep : gstep ⟨G, C, buf, true, d⟩ l =
          ⟨G, C, buf ++ l, true,
            d + (l.count '\x7b' : Int) - (l.count '\x7d' : Int)⟩ := by
        simp only [gstep]
        rw [if_neg hne]
        simp
      rw [List.foldl_cons, hstep, ih _ _ _ _ hw]
      simp only [joinL, List.flatten_cons, List.append_assoc]

theorem gstep_comments : ∀ (ls : List (List Char)) (G : List (List Char × List Char))
    (C : List Char), (∀ l ∈ ls, l.contains '\x7b' = false) →
    List.foldl gstep ⟨G, C, [], false, 0⟩ ls = ⟨G, C ++ joinL ls, [], false, 0⟩ := by
  intro ls
  induction ls with
  | nil => intro G C _; simp [joinL]
  | cons l ls2 ih =>
    intro G C h
    simp only [List.foldl_cons, gstep, if_neg (Bool.false_ne_true),
      h l (by simp), Bool.false_eq_true, if_false]
    rw [ih G (C ++ l) (fun x hx => h x (by simp [hx]))]
    simp [joinL, List.append_assoc]

theorem gstep_one_unit (c o : List Char) (G : List (List Char × List Char))
    (hc : ∀ l ∈ splitLines c, l.contains '\x7b' = false)
    (ho : objLinesOK (splitLines o) = true) :
    List.foldl gstep ⟨G, [], [], false, 0⟩ (splitLines c ++ splitLines o) =
      ⟨G ++ [(c, o)], [], [], false, 0⟩ := by
  rw [List.foldl_append, gstep_comments _ G [] hc, List.nil_append,
    joinL_splitLines]
  cases hsl : splitLines o with
  | nil => rw [hsl] at ho; simp [objLinesOK] at ho
  | cons l1 rest =>
    rw [hsl] at ho
    simp only [objLinesOK, Bool.and_eq_true] at ho
    obtain ⟨h1, hw⟩ := ho
    simp only [List.foldl_cons, gstep, if_neg (Bool.false_ne_true),
      h1, if_true]
    rw [gstep_obj_walk rest _ l1 c G hw]
    have : l1 ++ joinL rest = o := by
      have := joinL_splitLines o
      rw [hsl] at this
      simpa [joinL] using this
    rw [this]

/-- A (comments, object) group whose emitted text regroups to itself:
the comments are complete lines without an opening brace, and the object
text is complete lines that the walk consumes as one group. -/
def unitRegroupable (u : List Char × List Char) : Bool :=
  (decide (u.1 = []) || endsWithL ['\n'] u.1) &&
  ((splitLines u.1).all fun l => !(l.contains '\x7b')) &&
  endsWithL ['\n'] u.2 &&
  objLinesOK (splitLines u.2)

theorem regroup_units : ∀ (units : List (List Char × List Char))
    (G : List (List Char × List Char)),
    (∀ u ∈ units, unitRegroupable u = true) →
    ∀ tc : List Char, (∀ l ∈ splitLines tc, l.contains '\x7b' = false) →
    List.foldl gstep ⟨G, [], [], false, 0⟩
        (splitLines (joinL (units.map fun u => u.1 ++ u.2) ++ tc)) =
      ⟨G ++ units, tc, [], false, 0⟩ := by
  intro units
  induction units with
  | nil =>
    intro G _ tc htc
    simp only [List.map_nil, joinL, List.flatten_nil, List.nil_append]
    rw [gstep_comments _ G [] htc, joinL_splitLines]
    simp
  | cons u us ih =>
    intro G h tc htc
    have hu := h u (by simp)
    simp only [unitRegroupable, Bool.and_eq_true, Bool.or_eq_true,
      decide_eq_true_eq, List.all_eq_true, Bool.not_eq_true'] at hu
    obtain ⟨⟨⟨hc1, hc2⟩, ho1⟩, ho2⟩ := hu
    have hsplit1 : splitLines ((u.1 ++ u.2) ++ (joinL (us.map fun u => u.1 ++ u.2) ++ tc)) =
        splitLines u.1 ++ splitLines (u.2 ++ (joinL (us.map fun u => u.1 ++ u.2) ++ tc)) := by
      cases hc1 with
      | inl hnil => rw [hnil]; simp [splitLines]
      | inr hend =>
        rw [List.append_assoc]
        exact splitLines_append_nl u.1 _ hend
    have hsplit2 : splitLines (u.2 ++ (joinL (us.map fun u => u.1 ++ u.2) ++ tc)) =
        splitLines u.2 ++ splitLines (joinL (us.map fun u => u.1 ++ u.2) ++ tc) :=
      splitLines_append_nl u.2 _ ho1
    simp only [List.map_cons, joinL, List.flatten_cons, List.append_assoc] at *
    rw [show splitLines (u.1 ++ (u.2 ++ (List.flatten (us.map fun u => u.1 ++ u.2) ++ tc))) =
        splitLines u.1 ++ splitLines u.2 ++
          splitLines (List.flatten (us.map fun u => u.1 ++ u.2) ++ tc) by
      rw [← List.append_assoc u.1 u.2] at hsplit1 ⊢
      rw [hsplit1, hsplit2, List.append_assoc]]
    rw [List.foldl_append, gstep_one_unit u.1 u.2 G hc2 ho2]
    have := ih (G ++ [(u.1, u.2)]) (fun x hx => h x (by simp [hx])) tc htc
    simp only [joinL] at this
    rw [this, List.append_assoc]
    rfl

theorem regroup (units : List (List Char × List Char))
    (h : ∀ u ∈ units, unitRegroupable u = true)
    (tc : List Char) (htc : ∀ l ∈ splitLines tc, l.contains '\x7b' = false) :
    group_objects_with_comments (joinL (units.map fun u => u.1 ++ u.2) ++ tc) =
      (units, tc) := by
  simp only [group_objects_with_comments]
  rw [regroup_units units [] h tc htc]
  simp

/-!
## Claim C9: sort-key stability across rounds
-/

theorem spanGreedy_cons_of_ne (c : Char) (s : List Char) (hc : ¬ (c = '\x7b')) :
    extractBraceSpanGreedy (c :: s) = extractBraceSpanGreedy s := by
  rw [extractBraceSpanGreedy, extractBraceSpanGreedy,
    List.dropWhile_cons_of_pos (by simp [hc])]

/-- The greedy brace span ignores everything after the last close brace,
so brace-free tails do not affect it. -/
theorem spanGreedy_tail_eq (tail : List Char)
    (h1 : tail.contains '\x7b' = false) (h2 : tail.contains '\x7d' = false) :
    ∀ u : List Char,
      extractBraceSpanGreedy (u ++ '\x7d' :: tail) =
        extractBraceSpanGreedy (u ++ ['\x7d']) := by
  intro u
  induction u with
  | nil =>
    simp only [List.nil_append]
    rw [extractBraceSpanGreedy, extractBraceSpanGreedy]
    rw [List.dropWhile_cons_of_pos (by simp), List.dropWhile_cons_of_pos (by simp)]
    have hdt : tail.dropWhile (fun c => ¬ (c = '\x7b') : Char → Bool) = [] := by
      rw [List.dropWhile_eq_nil_iff]
      intro x hx
      simp only [decide_eq_true_eq]
      exact not_mem_of_contains_false h1 x hx
    rw [hdt]
    rfl
  | cons c u2 ih =>
    by_cases hc : c = '\x7b'
    · subst hc
      simp only [List.cons_append]
      rw [extractBraceSpanGreedy, extractBraceSpanGreedy]
      rw [List.dropWhile_cons_of_neg (by simp), List.dropWhile_cons_of_neg (by simp)]
      have hrev : ∀ a ∈ tail.reverse, (fun c => ¬ (c = '\x7d') : Char → Bool) a = true := by
        intro a ha
        simp only [decide_eq_true_eq]
        exact not_mem_of_contains_false h2 a (List.mem_reverse.1 ha)
      have hL : (u2 ++ '\x7d' :: tail).reverse.dropWhile
          (fun c => ¬ (c = '\x7d') : Char → Bool) = '\x7d' :: u2.reverse := by
        rw [List.reverse_append]
        simp only [List.reverse_cons]
        rw [List.append_assoc, List.dropWhile_append_of_pos hrev,
          List.singleton_append, List.dropWhile_cons_of_neg (by simp)]
      have hR : (u2 ++ ['\x7d']).reverse.dropWhile
          (fun c => ¬ (c = '\x7d') : Char → Bool) = '\x7d' :: u2.reverse := by
        rw [List.reverse_append]
        simp only [List.reverse_cons, List.reverse_nil, List.nil_append,
          List.singleton_append]
        rw [List.dropWhile_cons_of_neg (by simp)]
      simp only [hL, hR]
    · simp only [List.cons_append]
      rw [spanGreedy_cons_of_ne c _ hc, spanGreedy_cons_of_ne c _ hc, ih]

theorem extract_sort_keys_span_congr (pw : Bool) (s t : List Char)
    (h : extractBraceSpanGreedy s = extractBraceSpanGreedy t) :
    extract_sort_keys s pw = extract_sort_keys t pw := by
  rw [extract_sort_keys, extract_sort_keys, h]

theorem extract_key_when_span_congr (s t : List Char)
    (h : extractBraceSpanGreedy s = extractBraceSpanGreedy t) :
    extract_key_when s = extract_key_when t := by
  rw [extract_key_when, extract_key_when, h]

theorem pyRstrip_append_ws (s : List Char) (c : Char) (h : pyIsSpace c = true) :
    pyRstrip (s ++ [c]) = pyRstrip s := by
  rw [pyRstrip, pyRstrip]
  simp only [List.reverse_append, List.reverse_cons, List.reverse_nil,
    List.nil_append, List.singleton_append]
  rw [List.dropWhile_cons_of_pos (by simp [h])]

theorem contains_congr_of_count (a b : List Char) (c : Char)
    (h : List.count c a = List.count c b) : a.contains c = b.contains c := by
  cases hca : a.contains c <;> cases hcb : b.contains c <;> try rfl
  · exfalso
    have g1 : c ∉ a := by simpa using hca
    have g2 : c ∈ b := by simpa using hcb
    rw [← List.count_eq_zero] at g1
    have := List.count_pos_iff.2 g2
    omega
  · exfalso
    have g1 : c ∈ a := by simpa using hca
    have g2 : c ∉ b := by simpa using hcb
    rw [← List.count_eq_zero] at g2
    have := List.count_pos_iff.2 g1
    omega

/-- The depth walk only looks at the brace counts of the lines. -/
theorem objWalk_congr : ∀ (ls1 ls2 : List (List Char)),
    List.Forall₂ (fun a b => List.count '\x7b' a = List.count '\x7b' b ∧
      List.count '\x7d' a = List.count '\x7d' b) ls1 ls2 →
    ∀ d : Int, objWalk d ls1 = objWalk d ls2 := by
  intro ls1
  induction ls1 with
  | nil =>
    intro ls2 h d
    cases ls2 with
    | nil => rfl
    | cons b l2 => exact absurd h (by intro hh; cases hh)
  | cons a l1 ih =>
    intro ls2 h d
    cases ls2 with
    | nil => exact absurd h (by intro hh; cases hh)
    | cons b l2 =>
      rw [List.forall₂_cons] at h
      obtain ⟨hab, htl⟩ := h
      cases l1 with
      | nil =>
        cases l2 with
        | nil => simp [objWalk, hab.1, hab.2]
        | cons e l2b => exact absurd htl (by intro hh; cases hh)
      | cons c l1b =>
        cases l2 with
        | nil => exact absurd htl (by intro hh; cases hh)
        | cons e l2b =>
          simp only [objWalk]
          rw [hab.1, hab.2, ih _ htl]

/-- Whether a line list is consumed as exactly one group only depends on
the brace counts of the lines. -/
theorem objLinesOK_congr (ls1 ls2 : List (List Char))
    (h : List.Forall₂ (fun a b => List.count '\x7b' a = List.count '\x7b' b ∧
      List.count '\x7d' a = List.count '\x7d' b) ls1 ls2) :
    objLinesOK ls1 = objLinesOK ls2 := by
  cases ls1 with
  | nil =>
    cases ls2 with
    | nil => rfl
    | cons b l2 => exact absurd h (by intro hh; cases hh)
  | cons a l1 =>
    cases ls2 with
    | nil => exact absurd h (by intro hh; cases hh)
    | cons b l2 =>
      rw [List.forall₂_cons] at h
      obtain ⟨hab, htl⟩ := h
      simp only [objLinesOK]
      rw [contains_congr_of_count a b '\x7b' hab.1, hab.1, hab.2,
        objWalk_congr l1 l2 htl]

/-!
## Claim C9: array extraction on shaped text
-/

theorem findIdx_go_first (p : Char → Bool) : ∀ (pre rest : List Char) (i : Nat)
    (c : Char), (∀ x ∈ pre, p x = false) → p c = true →
    (pre ++ c :: rest).findIdx? p i = some (i + pre.length) := by
  intro pre
  induction pre with
  | nil => intro rest i c _ hp; simp [List.findIdx?, hp]
  | cons a pre2 ih =>
    intro rest i c h hp
    rw [List.cons_append, List.findIdx?]
    rw [h a (by simp)]
    simp only [Bool.false_eq_true, if_false]
    rw [ih rest (i + 1) c (fun x hx => h x (by simp [hx])) hp]
    simp only [List.length_cons]
    congr 1
    omega

theorem find_idx_of_shape (c : Char) (pre rest : List Char)
    (h : pre.contains c = false) :
    find_idx c (pre ++ c :: rest) = some pre.length := by
  rw [find_idx]
  have := findIdx_go_first (fun x => x = c) pre rest 0 c
    (fun x hx => by
      simp only [decide_eq_false_iff_not]
      exact not_mem_of_contains_false h x hx)
    (by simp)
  simpa using this

theorem rfind_idx_of_shape (c : Char) (body post : List Char)
    (h : post.contains c = false) :
    rfind_idx c (body ++ c :: post) = some body.length := by
  rw [rfind_idx]
  have hrev : (body ++ c :: post).reverse = post.reverse ++ c :: body.reverse := by
    simp
  rw [hrev, findIdx_go_first (fun x => x = c) post.reverse body.reverse 0 c
    (fun x hx => by
      simp only [decide_eq_false_iff_not]
      exact not_mem_of_contains_false h x (List.mem_reverse.1 hx))
    (by simp)]
  simp only [Option.map_some', Option.some.injEq]
  simp only [List.length_append, List.length_cons, List.length_reverse]
  omega

/-- extract_preamble_postamble on a text of the canonical shape: a
bracket-free preamble, the body, a close bracket, and a postamble free of
close brackets. -/
theorem extract_of_shape (pre mid post : List Char)
    (hpre : pre.contains '[' = false) (hpost : post.contains ']' = false) :
    extract_preamble_postamble (pre ++ '[' :: mid ++ ']' :: post) =
      (pre, mid, post) := by
  rw [extract_preamble_postamble]
  have hf : find_idx '[' (pre ++ '[' :: mid ++ ']' :: post) = some pre.length := by
    rw [show pre ++ '[' :: mid ++ ']' :: post = pre ++ '[' :: (mid ++ ']' :: post)
      from by simp]
    exact find_idx_of_shape '[' pre _ hpre
  have hr2 : rfind_idx ']' (pre ++ '[' :: mid ++ ']' :: post) =
      some (pre.length + 1 + mid.length) := by
    rw [show pre ++ '[' :: mid ++ ']' :: post = (pre ++ '[' :: mid) ++ ']' :: post
      from by simp]
    rw [rfind_idx_of_shape ']' (pre ++ '[' :: mid) post hpost]
    simp only [Option.some.injEq, List.length_append, List.length_cons]
    omega
  simp only [hf, hr2]
  rw [if_neg (by omega)]
  have h1 : (pre ++ '[' :: mid ++ ']' :: post).take pre.length = pre := by
    have := List.take_left pre ('[' :: mid ++ ']' :: post)
    simpa using this
  have h2 : (pre ++ '[' :: mid ++ ']' :: post).drop (pre.length + 1) =
      mid ++ ']' :: post := by
    rw [show pre ++ '[' :: mid ++ ']' :: post =
        (pre ++ ['[']) ++ (mid ++ ']' :: post) from by simp]
    rw [show pre.length + 1 = (pre ++ ['[']).length from by simp]
    exact List.drop_left _ _
  have h3 : (pre ++ '[' :: mid ++ ']' :: post).drop (pre.length + 1 + mid.length + 1) =
      post := by
    rw [show pre ++ '[' :: mid ++ ']' :: post =
        ((pre ++ '[' :: mid) ++ [']']) ++ post from by simp]
    rw [show pre.length + 1 + mid.length + 1 = ((pre ++ '[' :: mid) ++ [']']).length
      from by simp; omega]
    exact List.drop_left _ _
  rw [h1, h2, h3]
  have h4 : pre.length + 1 + mid.length - pre.length - 1 = mid.length := by omega
  rw [h4, List.take_left mid (']' :: post)]

/-!
## Claim C9: per-unit emission under canonical shape
-/

/-- The (comments, object) pairs the sort main loop would emit absent any
duplicate marking: normalized object plus the appended comma for non-last
units without a trailing comma of their own, plus the final newline. -/
def emitPairs : List (List Char × List Char) → List (List Char × List Char)
  | [] => []
  | (c, o) :: rest =>
    (c, obj_out_fix o ++
      (if rest = [] then []
       else if object_has_trailing_comma (obj_out_fix o) then [] else [',']) ++
      ['\n']) :: emitPairs rest

/-- The emitted texts absent duplicate marking. -/
def emitChunks (gs : List (List Char × List Char)) : List (List Char) :=
  (emitPairs gs).map (fun u => u.1 ++ u.2)

theorem emitPairs_eq_nil_iff (gs : List (List Char × List Char)) :
    emitPairs gs = [] ↔ gs = [] := by
  cases gs with
  | nil => simp [emitPairs]
  | cons g rest =>
    obtain ⟨c, o⟩ := g
    rw [emitPairs]
    simp

/-- When no group repeats the (key, when) pair of an earlier group or of
the seen set, the main loop emits exactly the unmarked chunks. -/
theorem emitUnits_no_dup : ∀ (gs seen : List (List Char × List Char)),
    (∀ g ∈ gs, seen.contains (pairOf g) = false) →
    (gs.map pairOf).Nodup →
    emitUnits gs seen = emitChunks gs := by
  intro gs
  induction gs with
  | nil => intro seen _ _; rfl
  | cons g rest ih =>
    intro seen hseen hnodup
    obtain ⟨c, o⟩ := g
    rw [emitUnits, emitChunks, emitPairs]
    simp only [List.map_cons]
    have h1 : seen.contains (extract_key_when o) = false := by
      have := hseen (c, o) (by simp)
      simpa [pairOf] using this
    simp only [List.map_cons, List.nodup_cons, pairOf] at hnodup
    congr 1
    · rw [if_neg (by rw [h1]; simp)]
      simp [List.append_assoc]
    · have hseen2 : ∀ g2 ∈ rest,
          (extract_key_when o :: seen).contains (pairOf g2) = false := by
        intro g2 hg2
        rw [List.contains_cons]
        have hne : ¬ (pairOf g2 = extract_key_when o) := by
          intro he
          apply hnodup.1
          rw [← he]
          exact List.mem_map.2 ⟨g2, hg2, rfl⟩
        rw [beq_eq_false_iff_ne.2 hne, hseen g2 (by simp [hg2])]
        rfl
      rw [ih (extract_key_when o :: seen) hseen2 hnodup.2, emitChunks]

theorem contains_append_false (a b : List Char) (c : Char)
    (h1 : a.contains c = false) (h2 : b.contains c = false) :
    (a ++ b).contains c = false := by
  rw [List.contains_eq_any_beq, List.any_append]
  rw [List.contains_eq_any_beq] at h1 h2
  simp [h1, h2]

/-- A group in the canonical shape the sort output itself produces: the
comments are complete brace-free lines, the object is the normalized core
ending at its last close brace, then an optional single comma and a final
newline, the object lines regroup as one object, and no line of the core
begins with a comma. -/
def GroupCanon (g : List Char × List Char) : Prop :=
  (g.1 = [] ∨ endsWithL ['\n'] g.1 = true) ∧
  (∀ l ∈ splitLines g.1, l.contains '\x7b' = false) ∧
  ∃ core tail,
    g.2 = (core ++ ['\x7d']) ++ tail ++ ['\n'] ∧
    (tail = [] ∨ tail = [',']) ∧
    objLinesOK (splitLines g.2) = true ∧
    (∀ l ∈ splitLinesNK (core ++ ['\x7d']), ¬ ([','].isPrefixOf (pyStrip l) = true))

theorem obj_out_fix_canonical2 (core tail : List Char)
    (htail : tail = [] ∨ tail = [',']) :
    obj_out_fix ((core ++ ['\x7d']) ++ tail ++ ['\n']) = core ++ ['\x7d'] := by
  have hr : pyRstrip ((core ++ ['\x7d']) ++ tail ++ ['\n']) = core ++ '\x7d' :: tail := by
    rw [show (core ++ ['\x7d']) ++ tail ++ ['\n'] =
        ((core ++ ['\x7d']) ++ tail) ++ ['\n'] from by simp]
    rw [pyRstrip_append_ws _ '\n' (by decide)]
    rcases htail with h | h
    · subst h
      simp only [List.append_nil]
      rw [pyRstrip_append_nonws core '\x7d' (by decide)]
    · subst h
      rw [pyRstrip_append_nonws (core ++ ['\x7d']) ',' (by decide)]
      simp
  exact obj_out_fix_canonical _ core tail hr
    (by rcases htail with h | h <;> subst h <;> decide)
    (by rcases htail with h | h <;> subst h <;> decide)

theorem canon_keys (pw : Bool) (core v : List Char)
    (hv1 : v.contains '\x7b' = false) (hv2 : v.contains '\x7d' = false) :
    extract_sort_keys ((core ++ ['\x7d']) ++ v ++ ['\n']) pw =
      extract_sort_keys (core ++ ['\x7d']) pw := by
  apply extract_sort_keys_span_congr
  have h := spanGreedy_tail_eq (v ++ ['\n'])
    (contains_append_false v ['\n'] '\x7b' hv1 (by decide))
    (contains_append_false v ['\n'] '\x7d' hv2 (by decide)) core
  rw [← h]
  congr 1
  simp

theorem canon_key_when (core v : List Char)
    (hv1 : v.contains '\x7b' = false) (hv2 : v.contains '\x7d' = false) :
    extract_key_when ((core ++ ['\x7d']) ++ v ++ ['\n']) =
      extract_key_when (core ++ ['\x7d']) := by
  apply extract_key_when_span_congr
  have h := spanGreedy_tail_eq (v ++ ['\n'])
    (contains_append_false v ['\n'] '\x7b' hv1 (by decide))
    (contains_append_false v ['\n'] '\x7d' hv2 (by decide)) core
  rw [← h]
  congr 1
  simp

theorem flag_cases (b1 b2 : Prop) [Decidable b1] [Decidable b2] :
    (if b1 then ([] : List Char) else if b2 then [] else [',']) = [] ∨
    (if b1 then ([] : List Char) else if b2 then [] else [',']) = [','] := by
  split
  · left; rfl
  · split
    · left; rfl
    · right; rfl

/-- Everything the second round needs about one canonical group: the
normalization is idempotent across the appended comma and newline, no
trailing comma is detected on the normalized core, the sort keys and the
(key, when) pair survive the round, and the emitted unit regroups. -/
theorem canon_emit_head (g : List Char × List Char) (h : GroupCanon g)
    (flag : List Char) (hflag : flag = [] ∨ flag = [',']) :
    obj_out_fix (obj_out_fix g.2 ++ flag ++ ['\n']) = obj_out_fix g.2 ∧
    object_has_trailing_comma (obj_out_fix g.2) = false ∧
    (∀ pw, extract_sort_keys (obj_out_fix g.2 ++ flag ++ ['\n']) pw =
      extract_sort_keys g.2 pw) ∧
    extract_key_when (obj_out_fix g.2 ++ flag ++ ['\n']) = extract_key_when g.2 ∧
    unitRegroupable (g.1, obj_out_fix g.2 ++ flag ++ ['\n']) = true := by
  obtain ⟨hc1, hc2, core, tail, hshape, htail, hok, hlines⟩ := h
  have hfix : obj_out_fix g.2 = core ++ ['\x7d'] := by
    rw [hshape]
    exact obj_out_fix_canonical2 core tail htail
  have hflag1 : flag.contains '\x7b' = false := by
    rcases hflag with hh | hh <;> subst hh <;> decide
  have hflag2 : flag.contains '\x7d' = false := by
    rcases hflag with hh | hh <;> subst hh <;> decide
  have htail1 : tail.contains '\x7b' = false := by
    rcases htail with hh | hh <;> subst hh <;> decide
  have htail2 : tail.contains '\x7d' = false := by
    rcases htail with hh | hh <;> subst hh <;> decide
  refine ⟨?_, ?_, ?_, ?_, ?_⟩
  · rw [hfix]
    exact obj_out_fix_canonical2 core flag hflag
  · rw [hfix]
    exact object_has_trailing_comma_canonical core hlines
  · intro pw
    rw [hfix, hshape]
    rw [canon_keys pw core flag hflag1 hflag2, canon_keys pw core tail htail1 htail2]
  · rw [hfix, hshape]
    rw [canon_key_when core flag hflag1 hflag2, canon_key_when core tail htail1 htail2]
  · rw [unitRegroupable]
    simp only [Bool.and_eq_true]
    refine ⟨⟨⟨?_, ?_⟩, ?_⟩, ?_⟩
    · rcases hc1 with hh | hh
      · simp [hh]
      · simp [hh]
    · rw [List.all_eq_true]
      intro l hl
      simp only [Bool.not_eq_true']
      exact hc2 l hl
    · show endsWithL ['\n'] (obj_out_fix g.2 ++ flag ++ ['\n']) = true
      rw [show obj_out_fix g.2 ++ flag ++ ['\n'] =
          (obj_out_fix g.2 ++ flag) ++ ['\n'] from by simp]
      exact endsWithL_append_single _ '\n'
    · show objLinesOK (splitLines (obj_out_fix g.2 ++ flag ++ ['\n'])) = true
      rw [hfix]
      obtain ⟨pre0, l0, hpl⟩ := splitLines_append_line (core ++ ['\x7d'])
      have hnlf : ∀ x ∈ flag, ¬ (x = '\n') := by
        rcases hflag with hh | hh <;> subst hh
        · simp
        · intro x hx
          simp only [List.mem_singleton] at hx
          subst hx
          decide
      have hnlt : ∀ x ∈ tail, ¬ (x = '\n') := by
        rcases htail with hh | hh <;> subst hh
        · simp
        · intro x hx
          simp only [List.mem_singleton] at hx
          subst hx
          decide
      have hs2 : splitLines ((core ++ ['\x7d']) ++ flag ++ ['\n']) =
          pre0 ++ [l0 ++ flag ++ ['\n']] := hpl flag hnlf
      have hs1 : splitLines g.2 = pre0 ++ [l0 ++ tail ++ ['\n']] := by
        rw [hshape]
        exact hpl tail hnlt
      have hzf1 : List.count '\x7b' flag = 0 := by
        rcases hflag with hh | hh <;> subst hh <;> decide
      have hzf2 : List.count '\x7d' flag = 0 := by
        rcases hflag with hh | hh <;> subst hh <;> decide
      have hzt1 : List.count '\x7b' tail = 0 := by
        rcases htail with hh | hh <;> subst hh <;> decide
      have hzt2 : List.count '\x7d' tail = 0 := by
        rcases htail with hh | hh <;> subst hh <;> decide
      have hfa : List.Forall₂ (fun a b => List.count '\x7b' a = List.count '\x7b' b ∧
          List.count '\x7d' a = List.count '\x7d' b)
          (pre0 ++ [l0 ++ flag ++ ['\n']]) (pre0 ++ [l0 ++ tail ++ ['\n']]) := by
        refine List.rel_append (List.forall₂_same.2 (fun x _ => ⟨rfl, rfl⟩)) ?_
        refine List.forall₂_cons.2 ⟨⟨?_, ?_⟩, List.Forall₂.nil⟩
        · simp only [List.count_append, hzf1, hzt1]
        · simp only [List.count_append, hzf2, hzt2]
      rw [hs2, objLinesOK_congr _ _ hfa, ← hs1]
      exact hok

theorem emitPairs_keys (pw : Bool) : ∀ gs : List (List Char × List Char),
    (∀ g ∈ gs, GroupCanon g) →
    (emitPairs gs).map (fun u => extract_sort_keys u.2 pw) =
      gs.map (fun g => extract_sort_keys g.2 pw) := by
  intro gs
  induction gs with
  | nil => intro _; rfl
  | cons g rest ih =>
    intro h
    obtain ⟨c, o⟩ := g
    rw [emitPairs]
    simp only [List.map_cons]
    congr 1
    · exact (canon_emit_head (c, o) (h (c, o) (by simp)) _
        (flag_cases _ _)).2.2.1 pw
    · exact ih (fun g2 hg2 => h g2 (by simp [hg2]))

theorem emitPairs_pairOf : ∀ gs : List (List Char × List Char),
    (∀ g ∈ gs, GroupCanon g) →
    (emitPairs gs).map pairOf = gs.map pairOf := by
  intro gs
  induction gs with
  | nil => intro _; rfl
  | cons g rest ih =>
    intro h
    obtain ⟨c, o⟩ := g
    rw [emitPairs]
    simp only [List.map_cons]
    congr 1
    · exact (canon_emit_head (c, o) (h (c, o) (by simp)) _
        (flag_cases _ _)).2.2.2.1
    · exact ih (fun g2 hg2 => h g2 (by simp [hg2]))

theorem emitPairs_regroupable : ∀ gs : List (List Char × List Char),
    (∀ g ∈ gs, GroupCanon g) →
    ∀ u ∈ emitPairs gs, unitRegroupable u = true := by
  intro gs
  induction gs with
  | nil => intro _ u hu; simp [emitPairs] at hu
  | cons g rest ih =>
    intro h u hu
    obtain ⟨c, o⟩ := g
    rw [emitPairs] at hu
    rcases List.mem_cons.1 hu with hh | hh
    · subst hh
      exact (canon_emit_head (c, o) (h (c, o) (by simp)) _
        (flag_cases _ _)).2.2.2.2
    · exact ih (fun g2 hg2 => h g2 (by simp [hg2])) u hh

theorem emitPairs_idem : ∀ gs : List (List Char × List Char),
    (∀ g ∈ gs, GroupCanon g) →
    emitPairs (emitPairs gs) = emitPairs gs := by
  intro gs
  induction gs with
  | nil => intro _; rfl
  | cons g rest ih =>
    intro h
    obtain ⟨c, o⟩ := g
    have hstep : emitPairs ((c, o) :: rest) =
        (c, obj_out_fix o ++
          (if rest = [] then []
           else if object_has_trailing_comma (obj_out_fix o) then [] else [',']) ++
          ['\n']) :: emitPairs rest := rfl
    rw [hstep, emitPairs]
    have h5 := canon_emit_head (c, o) (h (c, o) (by simp))
      (if rest = [] then []
       else if object_has_trailing_comma (obj_out_fix o) then [] else [','])
      (flag_cases _ _)
    congr 1
    · rw [h5.1]
      simp only [emitPairs_eq_nil_iff]
    · exact ih (fun g2 hg2 => h g2 (by simp [hg2]))

/-- Claim C9, amended: sorting is idempotent on documents whose array
portion sorts into canonical groups: bracket-free preamble, close-bracket
free postamble, brace-free complete-line trailing comments, pairwise
distinct (key, when) pairs, and each group consisting of brace-free
complete comment lines plus an object that regroups as one unit, ends at
its last close brace up to an optional single comma and final newline,
and has no comma-first line. -/
theorem c9_idempotent_sort (pw : Bool) (pre mid post : List Char)
    (hpre : pre.contains '[' = false)
    (hpost : post.contains ']' = false)
    (hcanon : ∀ g ∈ pySorted (groupLe pw) (group_objects_with_comments mid).1,
      GroupCanon g)
    (hnodup : ((pySorted (groupLe pw) (group_objects_with_comments mid).1).map
      pairOf).Nodup)
    (htc : ∀ l ∈ splitLines (group_objects_with_comments mid).2,
      l.contains '\x7b' = false) :
    sort_main pw (sort_main pw (pre ++ '[' :: mid ++ ']' :: post)) =
      sort_main pw (pre ++ '[' :: mid ++ ']' :: post) := by
  have hex1 := extract_of_shape pre mid post hpre hpost
  have hout1 : sort_main pw (pre ++ '[' :: mid ++ ']' :: post) =
      pre ++ '[' :: ((emitChunks (pySorted (groupLe pw)
          (group_objects_with_comments mid).1)).flatten ++
        (group_objects_with_comments mid).2 ++ ']' :: post) ++
      (if endsWithL ['\n'] post then [] else ['\n']) := by
    rw [sort_main, hex1]
    rw [emitUnits_no_dup _ [] (fun g _ => rfl) hnodup]
  rw [hout1]
  have hshape2 : pre ++ '[' :: ((emitChunks (pySorted (groupLe pw)
          (group_objects_with_comments mid).1)).flatten ++
        (group_objects_with_comments mid).2 ++ ']' :: post) ++
      (if endsWithL ['\n'] post then [] else ['\n']) =
      pre ++ '[' :: ((emitChunks (pySorted (groupLe pw)
          (group_objects_with_comments mid).1)).flatten ++
        (group_objects_with_comments mid).2) ++
      ']' :: (post ++ (if endsWithL ['\n'] post then [] else ['\n'])) := by
    simp only [List.cons_append, List.append_assoc]
  rw [hshape2]
  have hpost2 : (post ++ (if endsWithL ['\n'] post then [] else ['\n'])).contains
      ']' = false := by
    split
    · simpa using hpost
    · exact contains_append_false post ['\n'] ']' hpost (by decide)
  have hex2 := extract_of_shape pre
    ((emitChunks (pySorted (groupLe pw)
        (group_objects_with_comments mid).1)).flatten ++
      (group_objects_with_comments mid).2)
    (post ++ (if endsWithL ['\n'] post then [] else ['\n'])) hpre hpost2
  have hgroup2 : group_objects_with_comments
      ((emitChunks (pySorted (groupLe pw)
          (group_objects_with_comments mid).1)).flatten ++
        (group_objects_with_comments mid).2) =
      (emitPairs (pySorted (groupLe pw) (group_objects_with_comments mid).1),
       (group_objects_with_comments mid).2) :=
    regroup _ (emitPairs_regroupable _ hcanon) _ htc
  have hsorted2 : pySorted (groupLe pw)
      (emitPairs (pySorted (groupLe pw) (group_objects_with_comments mid).1)) =
      emitPairs (pySorted (groupLe pw) (group_objects_with_comments mid).1) := by
    apply pySorted_of_sorted
    have h1 : (pySorted (groupLe pw)
        (group_objects_with_comments mid).1).Pairwise
        (fun a b => groupLe pw a b = true) :=
      pySorted_sorted (groupLe pw) (groupLe_trans pw) (groupLe_total pw) _
    have h2 : ((pySorted (groupLe pw)
        (group_objects_with_comments mid).1).map
        (fun g => extract_sort_keys g.2 pw)).Pairwise
        (fun k1 k2 => ¬ (skeyCmp k1 k2 = .gt)) := by
      rw [List.pairwise_map]
      refine h1.imp ?_
      intro a b hab
      rw [groupLe] at hab
      simpa using hab
    rw [← emitPairs_keys pw _ hcanon, List.pairwise_map] at h2
    refine h2.imp ?_
    intro a b hab
    rw [groupLe]
    simpa using hab
  have hemit2 : emitUnits (emitPairs (pySorted (groupLe pw)
      (group_objects_with_comments mid).1)) [] =
      emitChunks (pySorted (groupLe pw) (group_objects_with_comments mid).1) := by
    rw [emitUnits_no_dup _ [] (fun g _ => rfl) ?_]
    · rw [emitChunks, emitPairs_idem _ hcanon]
      rfl
    · rw [emitPairs_pairOf _ hcanon]
      exact hnodup
  have hnl2 : (if endsWithL ['\n']
      (post ++ (if endsWithL ['\n'] post then [] else ['\n']))
      then ([] : List Char) else ['\n']) = [] := by
    rw [if_pos]
    by_cases hp : endsWithL ['\n'] post = true
    · rw [if_pos hp, List.append_nil]
      exact hp
    · rw [if_neg hp]
      exact endsWithL_append_single post '\n'
  rw [sort_main, hex2]
  simp only [hgroup2, hsorted2, hemit2, hnl2]
  simp only [List.cons_append, List.append_assoc, List.append_nil]

/-- A document whose first object carries a comment after its closing
brace on the same line. -/
def c9doc : List Char :=
  "[\n\x7b\n\"key\": \"a\"\n\x7d // c\n\x7b\n\"key\": \"b\"\n\x7d\n]\n".toList

/-- Claim C9, counterexample: sorting this document twice does not equal
sorting it once, even though no DUPLICATE annotation is involved in
either round: the trailing-comma detector never sees the close brace of
an object whose closing line continues with a comment, so every round
appends a fresh comma after that comment. -/
theorem c9_counterexample :
    ¬ (sort_main false (sort_main false c9doc) = sort_main false c9doc) ∧
    isSubstrOf "DUPLICATE".toList (sort_main false c9doc) = false ∧
    isSubstrOf "DUPLICATE".toList
      (sort_main false (sort_main false c9doc)) = false := by
  refine ⟨by decide, by decide, by decide⟩

/-- Witness for c9_idempotent_sort: a one-object canonical document. -/
theorem c9_idempotent_sort_witness :
    sort_main false (sort_main false
      ([] ++ '[' :: "\n\x7b\n\"key\": \"a\"\n\x7d\n".toList ++ ']' :: "\n".toList)) =
    sort_main false
      ([] ++ '[' :: "\n\x7b\n\"key\": \"a\"\n\x7d\n".toList ++ ']' :: "\n".toList) := by
  refine c9_idempotent_sort false [] "\n\x7b\n\"key\": \"a\"\n\x7d\n".toList
    "\n".toList (by decide) (by decide) ?_ (by decide) (by decide)
  intro g hg
  have hsg : pySorted (groupLe false)
      (group_objects_with_comments "\n\x7b\n\"key\": \"a\"\n\x7d\n".toList).1 =
      [("\n".toList, "\x7b\n\"key\": \"a\"\n\x7d\n".toList)] := by decide
  rw [hsg] at hg
  simp only [List.mem_singleton] at hg
  subst hg
  exact ⟨Or.inr (by decide), by decide, "\x7b\n\"key\": \"a\"\n".toList, [],
    by decide, Or.inl rfl, by decide, by decide⟩

end Gigachad
